import Mathlib

set_option maxHeartbeats 1000000

/-
Verification of the doubly linked list container of listHeader.hpp and
listImplementation.tpp.  Nodes live in a store indexed by natural-number
identifiers; a C++ pointer to a node is modelled as an optional identifier
(none is the null pointer).  Each list value carries the store of the nodes
it owns -- the container is strictly single owner, so node storage travels
with the owning list -- together with the head and tail pointers, the cached
element count and a counter supplying fresh identifiers for allocation.
Reads or writes through a null or dangling pointer are undefined behaviour
in the source; the model makes them inert (no store change, arbitrary value)
so that every operation is total.
-/

/-- A storage node (struct Node of listHeader.hpp): one element together with
links to the successor and predecessor nodes.  Both constructors of the
source leave next and prev null. -/
structure DNode (α : Type) where
  data : α
  next : Option Nat
  prev : Option Nat

/-- The node store: a map from node identifiers to the nodes allocated
at them. -/
abbrev DHeap (α : Type) := Nat → Option (DNode α)

variable {α : Type}

/-- Writes the node n at identifier i (allocation, or field update of an
existing node). -/
def hupd (h : DHeap α) (i : Nat) (n : DNode α) : DHeap α :=
  fun k => if k = i then some n else h k

/-- Removes the node at identifier i (the delete statement). -/
def hfree (h : DHeap α) (i : Nat) : DHeap α :=
  fun k => if k = i then none else h k

/-- The assignment i->next = q for a node identifier i.  A dangling i is
undefined behaviour in the source; the model leaves the store unchanged. -/
def setNextAt (h : DHeap α) (i : Nat) (q : Option Nat) : DHeap α :=
  match h i with
  | some n => hupd h i ⟨n.data, q, n.prev⟩
  | none => h

/-- The assignment i->prev = q for a node identifier i. -/
def setPrevAt (h : DHeap α) (i : Nat) (q : Option Nat) : DHeap α :=
  match h i with
  | some n => hupd h i ⟨n.data, n.next, q⟩
  | none => h

/-- The assignment p->next = q through a possibly null pointer p.  A null p
is undefined behaviour in the source; the model leaves the store unchanged. -/
def setNextPtr (h : DHeap α) (p : Option Nat) (q : Option Nat) : DHeap α :=
  match p with
  | some i => setNextAt h i q
  | none => h

/-- The assignment p->prev = q through a possibly null pointer p. -/
def setPrevPtr (h : DHeap α) (p : Option Nat) (q : Option Nat) : DHeap α :=
  match p with
  | some i => setPrevAt h i q
  | none => h

/-- The element stored at identifier i, when i is allocated. -/
def dataAt (h : DHeap α) (i : Nat) : Option α :=
  (h i).map DNode.data

/-- The error raised by front and back on an empty list
(std::out_of_range in the source). -/
inductive ListError where
  | outOfRange
deriving DecidableEq

/-- The List of listHeader.hpp: the store of owned nodes, the head and tail
pointers, the cached element count (field size), and the fresh-identifier
counter of the allocator model. -/
structure ListS (α : Type) where
  heap : DHeap α
  head : Option Nat
  tail : Option Nat
  size : Nat
  nextId : Nat

namespace ListS

/-- The default constructor List(): head and tail null, size zero
(listImplementation.tpp line 373). -/
def emptyList : ListS α :=
  ⟨fun _ => none, none, none, 0, 0⟩

/-- empty() compares begin() with end(), that is the head pointer with
null (line 1369). -/
def isEmpty (L : ListS α) : Bool :=
  L.head.isNone

/-- getSize() returns the cached count (line 1357). -/
def getSize (L : ListS α) : Nat :=
  L.size

/-- front() (line 506): throws out_of_range when head is null, otherwise
returns head->data.  A dangling head is undefined behaviour; the model
returns an arbitrary value there. -/
def front [Inhabited α] (L : ListS α) : Except ListError α :=
  match L.head with
  | none => Except.error ListError.outOfRange
  | some i =>
    match L.heap i with
    | some n => Except.ok n.data
    | none => Except.ok default

/-- back() (line 540): throws out_of_range when tail is null, otherwise
returns tail->data. -/
def back [Inhabited α] (L : ListS α) : Except ListError α :=
  match L.tail with
  | none => Except.error ListError.outOfRange
  | some i =>
    match L.heap i with
    | some n => Except.ok n.data
    | none => Except.ok default

/-- push_back(value) (lines 588 to 600): allocate a node; if head is null
the node becomes both head and tail, otherwise link it after tail;
increment size. -/
def push_back (L : ListS α) (v : α) : ListS α :=
  let p := L.nextId
  let h₀ := hupd L.heap p ⟨v, none, none⟩
  match L.head with
  | none => ⟨h₀, some p, some p, L.size + 1, p + 1⟩
  | some _ =>
    ⟨setPrevAt (setNextPtr h₀ L.tail (some p)) p L.tail, L.head, some p, L.size + 1, p + 1⟩

/-- push_front(value) (lines 1088 to 1099, and the rvalue overload at 1109):
allocate a node; if head is null the node becomes both head and tail,
otherwise link it before head; increment size. -/
def push_front (L : ListS α) (v : α) : ListS α :=
  let p := L.nextId
  let h₀ := hupd L.heap p ⟨v, none, none⟩
  match L.head with
  | none => ⟨h₀, some p, some p, L.size + 1, p + 1⟩
  | some hd =>
    ⟨setNextAt (setPrevAt h₀ hd (some p)) p (some hd), some p, L.tail, L.size + 1, p + 1⟩

/-- emplace_back(args...) (lines 1025 to 1037): same linking as push_back,
but tests tail rather than head for emptiness; the in-place construction
from the argument pack is modelled by the constructed element. -/
def emplace_back (L : ListS α) (v : α) : ListS α :=
  let p := L.nextId
  let h₀ := hupd L.heap p ⟨v, none, none⟩
  match L.tail with
  | none => ⟨h₀, some p, some p, L.size + 1, p + 1⟩
  | some t =>
    ⟨setPrevAt (setNextAt h₀ t (some p)) p (some t), L.head, some p, L.size + 1, p + 1⟩

/-- emplace_front(args...) (lines 1149 to 1161): same linking as push_front;
the in-place construction from the argument pack is modelled by the
constructed element. -/
def emplace_front (L : ListS α) (v : α) : ListS α :=
  let p := L.nextId
  let h₀ := hupd L.heap p ⟨v, none, none⟩
  match L.head with
  | none => ⟨h₀, some p, some p, L.size + 1, p + 1⟩
  | some hd =>
    ⟨setNextAt (setPrevAt h₀ hd (some p)) p (some hd), some p, L.tail, L.size + 1, p + 1⟩

/-- append_range(rg) (lines 1049 to 1053): emplace_back every element of the
range in order.  The range is modelled as a Lean list. -/
def append_range (L : ListS α) (rg : List α) : ListS α :=
  rg.foldl emplace_back L

/-- prepend_range(rg) (lines 1132 to 1136): emplace_front every element of
the range, iterating the range in reverse (from std::rbegin to
std::rend). -/
def prepend_range (L : ListS α) (rg : List α) : ListS α :=
  rg.reverse.foldl emplace_front L

/-- insert(pos, value) (lines 611 to 640; the rvalue and iterator overloads
at 652, 751 and 794 have the same body): allocate a node; when pos is null
append at the tail as push_back does; when pos is the head link the node
before the head; otherwise splice it between current->prev and current.
Returns the identifier of the new node (the returned iterator). -/
def insert (L : ListS α) (pos : Option Nat) (v : α) : ListS α × Nat :=
  let p := L.nextId
  let h₀ := hupd L.heap p ⟨v, none, none⟩
  match pos with
  | none =>
    match L.head with
    | none => (⟨h₀, some p, some p, L.size + 1, p + 1⟩, p)
    | some _ =>
      (⟨setPrevAt (setNextPtr h₀ L.tail (some p)) p L.tail, L.head, some p, L.size + 1, p + 1⟩, p)
  | some c =>
    if L.head = some c then
      (⟨setPrevPtr (setNextAt h₀ p L.head) L.head (some p), some p, L.tail, L.size + 1, p + 1⟩, p)
    else
      let cprev := (h₀ c).bind DNode.prev
      (⟨setPrevAt (setNextPtr (setPrevAt (setNextAt h₀ p (some c)) p cprev) cprev (some p)) c
          (some p), L.head, L.tail, L.size + 1, p + 1⟩, p)

/-- emplace(pos, args...) (lines 895 to 924): the body repeats the linking
of insert verbatim, constructing the element in place; the model therefore
reuses insert on the constructed element. -/
def emplace (L : ListS α) (pos : Option Nat) (v : α) : ListS α × Nat :=
  insert L pos v

/-- The loop of the count insert: iter starts at pos and each iteration
performs iter = insert(iter, value). -/
def insertCountAux (L : ListS α) (iter : Option Nat) (v : α) : Nat → ListS α × Option Nat
  | 0 => (L, iter)
  | n + 1 =>
    let r := insert L iter v
    insertCountAux r.1 (some r.2) v n

/-- insert(pos, count, value) (lines 693 to 699; the iterator overloads at
712 and 731 have the same body): runs the loop count times and returns the
final iterator. -/
def insertCount (L : ListS α) (pos : Option Nat) (count : Nat) (v : α) : ListS α × Option Nat :=
  insertCountAux L pos v count

/-- insert(pos, first, last) (lines 838 to 845 and 860 to 867; the
initializer-list overload at 879 delegates here): iter starts at pos and
while the source range is not exhausted performs iter = insert(iter, elem);
returns the final iterator.  The source range is modelled as a Lean list. -/
def insertRange (L : ListS α) (pos : Option Nat) : List α → ListS α × Option Nat
  | [] => (L, pos)
  | v :: rest =>
    let r := insert L pos v
    insertRange r.1 (some r.2) rest

/-- erase(pos) (lines 936 to 962; the const overload at 974 delegates here):
null pos returns end(); a head node moves head forward, a tail node moves
tail backward, an interior node is spliced out; the node is freed, size
decremented, and an iterator to the following node returned. -/
def erase (L : ListS α) (pos : Option Nat) : ListS α × Option Nat :=
  match pos with
  | none => (L, none)
  | some c =>
    let nextNode := (L.heap c).bind DNode.next
    if L.head = some c then
      match nextNode with
      | some hd =>
        (⟨hfree (setPrevAt L.heap hd none) c, some hd, L.tail, L.size - 1, L.nextId⟩, nextNode)
      | none =>
        (⟨hfree L.heap c, none, none, L.size - 1, L.nextId⟩, nextNode)
    else if L.tail = some c then
      match (L.heap c).bind DNode.prev with
      | some t =>
        (⟨hfree (setNextAt L.heap t none) c, L.head, some t, L.size - 1, L.nextId⟩, nextNode)
      | none =>
        (⟨hfree L.heap c, none, none, L.size - 1, L.nextId⟩, nextNode)
    else
      let cprev := (L.heap c).bind DNode.prev
      let cnext := (L.heap c).bind DNode.next
      (⟨hfree (setPrevPtr (setNextPtr L.heap cprev cnext) cnext cprev) c, L.head, L.tail,
        L.size - 1, L.nextId⟩, nextNode)

/-- The loop of the range erase: while first differs from last, first is
replaced by erase(first).  The source loop has no bound and runs forever on
an invalid range; the model unrolls it a given number of times. -/
def eraseRangeAux (L : ListS α) (first last : Option Nat) : Nat → ListS α × Option Nat
  | 0 => (L, last)
  | fuel + 1 =>
    if first = last then (L, last)
    else
      let r := erase L first
      eraseRangeAux r.1 r.2 last fuel

/-- erase(first, last) (lines 989 to 994; the const overload at 1007 has the
same body): repeatedly erases first until it equals last and returns last.
The unrolling bound size + 1 covers every terminating execution. -/
def eraseRange (L : ListS α) (first last : Option Nat) : ListS α × Option Nat :=
  eraseRangeAux L first last (L.size + 1)

/-- pop_back() (lines 1062 to 1078): a no-op on an empty list; otherwise
tail moves to tail->prev (clearing the new tail->next, or head when the
list becomes empty), the old tail is freed and size decremented. -/
def pop_back (L : ListS α) : ListS α :=
  match L.head with
  | none => L
  | some _ =>
    match L.tail with
    | none => L
    | some t =>
      match (L.heap t).bind DNode.prev with
      | some nt =>
        ⟨hfree (setNextAt L.heap nt none) t, L.head, some nt, L.size - 1, L.nextId⟩
      | none =>
        ⟨hfree L.heap t, none, none, L.size - 1, L.nextId⟩

/-- pop_front() (lines 1170 to 1186): a no-op on an empty list; otherwise
head moves to head->next (clearing the new head->prev, or tail when the
list becomes empty), the old head is freed and size decremented. -/
def pop_front (L : ListS α) : ListS α :=
  match L.head with
  | none => L
  | some hd =>
    match (L.heap hd).bind DNode.next with
    | some nh =>
      ⟨hfree (setPrevAt L.heap nh none) hd, some nh, L.tail, L.size - 1, L.nextId⟩
    | none =>
      ⟨hfree L.heap hd, none, none, L.size - 1, L.nextId⟩

/-- The deletion walk of clear(): follow next from the current node, saving
the successor before each delete.  The source loop stops at null; the
unrolling bound size + 1 covers it on every well formed list. -/
def clearLoop (h : DHeap α) : Nat → Option Nat → DHeap α
  | 0, _ => h
  | _ + 1, none => h
  | fuel + 1, some i =>
    match h i with
    | none => h
    | some n => clearLoop (hfree h i) fuel n.next

/-- clear() (lines 570 to 579): delete every node reachable from head, then
reset head, tail and size. -/
def clear (L : ListS α) : ListS α :=
  ⟨clearLoop L.heap (L.size + 1) L.head, none, none, 0, L.nextId⟩

/-- The copy walk of the copy assignment (lines 424 to 426): follow next
through the source chain, pushing each element onto the receiver. -/
def copyLoop (L : ListS α) (h : DHeap α) : Nat → Option Nat → ListS α
  | 0, _ => L
  | _ + 1, none => L
  | fuel + 1, some i =>
    match h i with
    | none => L
    | some n => copyLoop (push_back L n.data) h fuel n.next

/-- The copy assignment operator (lines 421 to 429) on distinct objects:
clear the receiver, then push back every element of the source in order. -/
def copyAssign (A B : ListS α) : ListS α :=
  copyLoop (clear A) B.heap (B.size + 1) B.head

/-- The move assignment operator (lines 397 to 409) on distinct objects guards
with this != &other, clears the receiver, adopts head, tail and size of the
other list and resets the other to empty.  In the single-owner model the
node store travels with the adopted pointers, and the store cleared out of
the receiver is dropped.  Returns (new receiver, emptied source). -/
def moveAssign (A B : ListS α) : ListS α × ListS α :=
  (⟨B.heap, B.head, B.tail, B.size, B.nextId⟩,
   ⟨fun _ => none, none, none, 0, B.nextId⟩)

/-- The move assignment operator applied to the object itself: the guard
this != &other fails, so the whole body is skipped and the list is
returned unchanged. -/
def moveAssignSelf (A : ListS α) : ListS α :=
  A

/-- assign(count, value) (lines 457 to 462): clear, then push back the value
count times. -/
def pushBackN (L : ListS α) (v : α) : Nat → ListS α
  | 0 => L
  | n + 1 => pushBackN (push_back L v) v n

/-- assign(count, value) (lines 457 to 462). -/
def assignCount (L : ListS α) (count : Nat) (v : α) : ListS α :=
  pushBackN (clear L) v count

/-- The push-back walk shared by assign(first, last) (line 474), the
initializer-list assignments (lines 440 and 489) and the order law: push
back every element of the sequence in order. -/
def pushBackAll (L : ListS α) (vs : List α) : ListS α :=
  vs.foldl push_back L

/-- assign(first, last) and both initializer-list assignments: clear, then
push back every source element in order. -/
def assignList (L : ListS α) (vs : List α) : ListS α :=
  pushBackAll (clear L) vs

/-- The shrinking loop of resize: while size exceeds count, pop_back.  Each
iteration of the source loop removes one node; the unrolling bound size
covers every execution on a well formed list. -/
def shrinkTo (L : ListS α) (count : Nat) : Nat → ListS α
  | 0 => L
  | fuel + 1 => if count < L.size then shrinkTo (pop_back L) count fuel else L

/-- The growing loop of resize: while size is below count, emplace_back the
fill value.  Each iteration adds one node, so the bound count covers every
execution. -/
def growTo (L : ListS α) (count : Nat) (v : α) : Nat → ListS α
  | 0 => L
  | fuel + 1 => if L.size < count then growTo (emplace_back L v) count v fuel else L

/-- resize(count, value) (lines 1222 to 1233): shrink from the back when
count is below size, grow at the back when count exceeds size, otherwise do
nothing.  resize(count) at line 1197 is the same with a default constructed
fill value. -/
def resize (L : ListS α) (count : Nat) (v : α) : ListS α :=
  if count < L.size then shrinkTo L count L.size
  else if L.size < count then growTo L count v count
  else L

/-- swap(other) (lines 1244 to 1249) on distinct objects: exchange head,
tail and size.  In the single-owner model each node lives in the store of
its owner, so the storage follows the exchanged pointers. -/
def swap (A B : ListS α) : ListS α × ListS α :=
  (⟨B.heap, B.head, B.tail, B.size, B.nextId⟩,
   ⟨A.heap, A.head, A.tail, A.size, A.nextId⟩)

/-- swap(other) where other aliases the receiver: each of the three
std::swap calls reads the saved value of its single location and writes it
back, so every field keeps its value.  The fields are written out to mirror
the three reassignments of the source. -/
def swapSelf (L : ListS α) : ListS α :=
  ⟨L.heap, L.head, L.tail, L.size, L.nextId⟩

/-- Forward traversal: the walk from begin() to end() by operator++ of the
iterator (line 66, following next), reading operator* at each node.  A
dangling pointer stops the walk (dereferencing it is undefined behaviour in
the source). -/
def traverseNext (h : DHeap α) : Nat → Option Nat → List α
  | 0, _ => []
  | _ + 1, none => []
  | fuel + 1, some i =>
    match h i with
    | none => []
    | some n => n.data :: traverseNext h fuel n.next

/-- The element sequence of the list: forward traversal from begin(), that
is from the head pointer.  The bound size + 1 exhausts the chain of every
well formed list. -/
def toList (L : ListS α) : List α :=
  traverseNext L.heap (L.size + 1) L.head

/-- Reverse traversal: the walk from rbegin() to rend() by operator++ of the
reverse iterator (line 294, following prev), reading operator* at each
node. -/
def traversePrev (h : DHeap α) : Nat → Option Nat → List α
  | 0, _ => []
  | _ + 1, none => []
  | fuel + 1, some i =>
    match h i with
    | none => []
    | some n => n.data :: traversePrev h fuel n.prev

/-- The element sequence seen from rbegin() to rend(): reverse traversal
from the tail pointer (rbegin at line 1333). -/
def toListRev (L : ListS α) : List α :=
  traversePrev L.heap (L.size + 1) L.tail

/-- The pointer one past a list of chained identifiers: the first identifier
when the list is nonempty, otherwise the given continuation pointer. -/
def firstLink (ids : List Nat) (nx : Option Nat) : Option Nat :=
  match ids with
  | [] => nx
  | i :: _ => some i

/-- The pointer to the last of a list of chained identifiers: the last
identifier when the list is nonempty, otherwise the given predecessor
pointer. -/
def lastLink : List Nat → Option Nat → Option Nat
  | [], pr => pr
  | i :: rest, _ => lastLink rest (some i)

/-- The chain segment predicate: the identifiers ids, read left to right,
form a doubly linked segment in the store h whose first node has prev
pointer pr and whose last node has next pointer nx; each interior pair is
mutually linked. -/
def chainSegP (h : DHeap α) : Option Nat → List Nat → Option Nat → Prop
  | _, [], _ => True
  | pr, i :: rest, nx =>
    ∃ n, h i = some n ∧ n.prev = pr ∧ n.next = firstLink rest nx ∧ chainSegP h (some i) rest nx

/-- The representation invariant: ids lists the identifiers of the nodes of
L in forward order.  The chain is doubly linked with null ends, head and
tail point at its first and last node, size is its length, the store is
allocated exactly at the listed identifiers, the identifiers are distinct
and all lie below the allocation counter. -/
structure Rep (L : ListS α) (ids : List Nat) : Prop where
  chain : chainSegP L.heap none ids none
  head_eq : L.head = firstLink ids none
  tail_eq : L.tail = lastLink ids none
  size_eq : L.size = ids.length
  dom : ∀ k, (L.heap k).isSome ↔ k ∈ ids
  nodup : ids.Nodup
  fresh : ∀ k ∈ ids, k < L.nextId

/-- The element sequence read off a list of identifiers. -/
def dmap (h : DHeap α) (ids : List Nat) : List α :=
  ids.filterMap (fun i => dataAt h i)

/-- A list represents an element sequence: some identifier chain realises the
representation invariant and carries exactly these elements. -/
def Models (L : ListS α) (xs : List α) : Prop :=
  ∃ ids, Rep L ids ∧ dmap L.heap ids = xs

/-- A well formed list: some identifier chain realises the representation
invariant. -/
def Wf (L : ListS α) : Prop :=
  ∃ ids, Rep L ids

/-- A valid insertion or erasure position for a list: the null end sentinel,
or a pointer to an allocated node of the list. -/
def ValidPos (L : ListS α) (pos : Option Nat) : Prop :=
  pos = none ∨ ∃ c, pos = some c ∧ (L.heap c).isSome

/-- The next and prev links are mutual inverses throughout the store: the
successor of a node points back at it and the predecessor of a node points
forward at it. -/
def MutualInv (h : DHeap α) : Prop :=
  (∀ i ni j nj, h i = some ni → ni.next = some j → h j = some nj → nj.prev = some i) ∧
  (∀ i ni j nj, h i = some ni → ni.prev = some j → h j = some nj → nj.next = some i)

/-- The boundary links of a nonempty list are null: the head node has a null
prev and the tail node has a null next. -/
def Boundary (L : ListS α) : Prop :=
  (∀ hd n, L.head = some hd → L.heap hd = some n → n.prev = none) ∧
  (∀ t n, L.tail = some t → L.heap t = some n → n.next = none)

/-- The states reachable by finite sequences of the public operations,
starting from the default constructed empty list.  Position arguments are
required to be valid iterators of the receiver (anything else is undefined
behaviour by the iterator contract of the source). -/
inductive Reaches : ListS α → Prop
  | emptyList : Reaches emptyList
  | push_back {L} (v : α) : Reaches L → Reaches (push_back L v)
  | push_front {L} (v : α) : Reaches L → Reaches (push_front L v)
  | emplace_back {L} (v : α) : Reaches L → Reaches (emplace_back L v)
  | emplace_front {L} (v : α) : Reaches L → Reaches (emplace_front L v)
  | insert {L} (pos : Option Nat) (v : α) :
      Reaches L → ValidPos L pos → Reaches (insert L pos v).1
  | emplace {L} (pos : Option Nat) (v : α) :
      Reaches L → ValidPos L pos → Reaches (emplace L pos v).1
  | insertCount {L} (pos : Option Nat) (n : Nat) (v : α) :
      Reaches L → ValidPos L pos → Reaches (insertCount L pos n v).1
  | insertRange {L} (pos : Option Nat) (vs : List α) :
      Reaches L → ValidPos L pos → Reaches (insertRange L pos vs).1
  | erase {L} (pos : Option Nat) :
      Reaches L → ValidPos L pos → Reaches (erase L pos).1
  | eraseRange {L} (first last : Option Nat) :
      Reaches L → ValidPos L first → Reaches (eraseRange L first last).1
  | pop_back {L} : Reaches L → Reaches (pop_back L)
  | pop_front {L} : Reaches L → Reaches (pop_front L)
  | resize {L} (count : Nat) (v : α) : Reaches L → Reaches (resize L count v)
  | clear {L} : Reaches L → Reaches (clear L)
  | swapFst {L M} : Reaches L → Reaches M → Reaches (swap L M).1
  | swapSnd {L M} : Reaches L → Reaches M → Reaches (swap L M).2
  | swapSelf {L} : Reaches L → Reaches (swapSelf L)
  | moveAssignFst {L M} : Reaches L → Reaches M → Reaches (moveAssign L M).1
  | moveAssignSnd {L M} : Reaches L → Reaches M → Reaches (moveAssign L M).2
  | moveAssignSelf {L} : Reaches L → Reaches (moveAssignSelf L)
  | copyAssign {L M} : Reaches L → Reaches M → Reaches (copyAssign L M)
  | assignCount {L} (count : Nat) (v : α) : Reaches L → Reaches (assignCount L count v)
  | assignList {L} (vs : List α) : Reaches L → Reaches (assignList L vs)

/-- A concrete two element list, built by two push_back calls, used by the
witnesses. -/
def sample2 : ListS Int :=
  push_back (push_back emptyList 10) 20

end ListS

namespace ListS

variable {α : Type}

theorem hupd_self (h : DHeap α) (i : Nat) (n : DNode α) : hupd h i n i = some n := by
  simp [hupd]

theorem hupd_ne (h : DHeap α) {i k : Nat} (n : DNode α) (hk : k ≠ i) : hupd h i n k = h k := by
  simp [hupd, hk]

theorem hfree_self (h : DHeap α) (i : Nat) : hfree h i i = none := by
  simp [hfree]

theorem hfree_ne (h : DHeap α) {i k : Nat} (hk : k ≠ i) : hfree h i k = h k := by
  simp [hfree, hk]

theorem setNextAt_of_eq {h : DHeap α} {i : Nat} {n : DNode α} (q : Option Nat)
    (hi : h i = some n) : setNextAt h i q = hupd h i ⟨n.data, q, n.prev⟩ := by
  simp [setNextAt, hi]

theorem setNextAt_ne {h : DHeap α} {i k : Nat} (q : Option Nat) (hk : k ≠ i) :
    setNextAt h i q k = h k := by
  unfold setNextAt
  cases hi : h i
  · rfl
  · exact hupd_ne h _ hk

theorem setNextAt_self {h : DHeap α} {i : Nat} {n : DNode α} (q : Option Nat)
    (hi : h i = some n) : setNextAt h i q i = some ⟨n.data, q, n.prev⟩ := by
  rw [setNextAt_of_eq q hi]
  exact hupd_self ..

theorem setPrevAt_of_eq {h : DHeap α} {i : Nat} {n : DNode α} (q : Option Nat)
    (hi : h i = some n) : setPrevAt h i q = hupd h i ⟨n.data, n.next, q⟩ := by
  simp [setPrevAt, hi]

theorem setPrevAt_ne {h : DHeap α} {i k : Nat} (q : Option Nat) (hk : k ≠ i) :
    setPrevAt h i q k = h k := by
  unfold setPrevAt
  cases hi : h i
  · rfl
  · exact hupd_ne h _ hk

theorem setPrevAt_self {h : DHeap α} {i : Nat} {n : DNode α} (q : Option Nat)
    (hi : h i = some n) : setPrevAt h i q i = some ⟨n.data, n.next, q⟩ := by
  rw [setPrevAt_of_eq q hi]
  exact hupd_self ..

theorem dataAt_hupd_self (h : DHeap α) (i : Nat) (n : DNode α) :
    dataAt (hupd h i n) i = some n.data := by
  simp [dataAt, hupd]

theorem dataAt_hupd_ne (h : DHeap α) {i k : Nat} (n : DNode α) (hk : k ≠ i) :
    dataAt (hupd h i n) k = dataAt h k := by
  simp [dataAt, hupd, hk]

theorem dataAt_setNextAt (h : DHeap α) (i : Nat) (q : Option Nat) (k : Nat) :
    dataAt (setNextAt h i q) k = dataAt h k := by
  unfold setNextAt
  cases hi : h i
  · rfl
  · by_cases hk : k = i
    · subst hk
      simp [dataAt, hupd, hi]
    · simp [dataAt, hupd, hk]

theorem dataAt_setPrevAt (h : DHeap α) (i : Nat) (q : Option Nat) (k : Nat) :
    dataAt (setPrevAt h i q) k = dataAt h k := by
  unfold setPrevAt
  cases hi : h i
  · rfl
  · by_cases hk : k = i
    · subst hk
      simp [dataAt, hupd, hi]
    · simp [dataAt, hupd, hk]

theorem dataAt_setNextPtr (h : DHeap α) (p : Option Nat) (q : Option Nat) (k : Nat) :
    dataAt (setNextPtr h p q) k = dataAt h k := by
  cases p
  · rfl
  · exact dataAt_setNextAt ..

theorem dataAt_setPrevPtr (h : DHeap α) (p : Option Nat) (q : Option Nat) (k : Nat) :
    dataAt (setPrevPtr h p q) k = dataAt h k := by
  cases p
  · rfl
  · exact dataAt_setPrevAt ..

theorem dataAt_hfree_ne (h : DHeap α) {i k : Nat} (hk : k ≠ i) :
    dataAt (hfree h i) k = dataAt h k := by
  simp [dataAt, hfree, hk]

theorem firstLink_nil (nx : Option Nat) : firstLink [] nx = nx := rfl

theorem firstLink_cons (i : Nat) (rest : List Nat) (nx : Option Nat) :
    firstLink (i :: rest) nx = some i := rfl

theorem setNextPtr_some (h : DHeap α) (i : Nat) (q : Option Nat) :
    setNextPtr h (some i) q = setNextAt h i q := rfl

theorem setPrevPtr_some (h : DHeap α) (i : Nat) (q : Option Nat) :
    setPrevPtr h (some i) q = setPrevAt h i q := rfl

theorem firstLink_append (xs ys : List Nat) (nx : Option Nat) :
    firstLink (xs ++ ys) nx = firstLink xs (firstLink ys nx) := by
  cases xs <;> rfl

theorem firstLink_irrel {xs : List Nat} (hx : xs ≠ []) (nx nxx : Option Nat) :
    firstLink xs nx = firstLink xs nxx := by
  cases xs with
  | nil => exact absurd rfl hx
  | cons a l => rfl

theorem firstLink_eq_none {xs : List Nat} : firstLink xs none = none ↔ xs = [] := by
  cases xs <;> simp [firstLink]

theorem lastLink_cons (i : Nat) (rest : List Nat) (pr : Option Nat) :
    lastLink (i :: rest) pr = lastLink rest (some i) := rfl

theorem lastLink_append (xs ys : List Nat) (pr : Option Nat) :
    lastLink (xs ++ ys) pr = lastLink ys (lastLink xs pr) := by
  induction xs generalizing pr with
  | nil => rfl
  | cons a l ih => simp [lastLink, ih]

theorem lastLink_concat (xs : List Nat) (x : Nat) (pr : Option Nat) :
    lastLink (xs ++ [x]) pr = some x := by
  rw [lastLink_append]
  rfl

theorem lastLink_irrel {xs : List Nat} (hx : xs ≠ []) (pr prr : Option Nat) :
    lastLink xs pr = lastLink xs prr := by
  rcases List.eq_nil_or_concat xs with rfl | ⟨l, b, rfl⟩
  · exact absurd rfl hx
  · rw [List.concat_eq_append, lastLink_concat, lastLink_concat]

theorem lastLink_isSome (xs : List Nat) (a : Nat) : (lastLink xs (some a)).isSome := by
  induction xs generalizing a with
  | nil => rfl
  | cons b l ih => exact ih b

theorem lastLink_eq_none {xs : List Nat} : lastLink xs none = none ↔ xs = [] := by
  constructor
  · intro hl
    cases xs with
    | nil => rfl
    | cons a l =>
      exfalso
      have := lastLink_isSome l a
      rw [lastLink_cons] at hl
      rw [hl] at this
      exact Bool.noConfusion this
  · rintro rfl
    rfl

theorem chainSeg_nil (h : DHeap α) (pr nx : Option Nat) : chainSegP h pr [] nx := trivial

theorem chainSeg_cons {h : DHeap α} {pr nx : Option Nat} {i : Nat} {ids : List Nat} :
    chainSegP h pr (i :: ids) nx ↔
      ∃ n, h i = some n ∧ n.prev = pr ∧ n.next = firstLink ids nx ∧
        chainSegP h (some i) ids nx := Iff.rfl

theorem chainSeg_append {h : DHeap α} {xs ys : List Nat} {pr nx : Option Nat} :
    chainSegP h pr (xs ++ ys) nx ↔
      chainSegP h pr xs (firstLink ys nx) ∧ chainSegP h (lastLink xs pr) ys nx := by
  induction xs generalizing pr with
  | nil => simp [chainSegP, lastLink]
  | cons i l ih =>
    simp only [List.cons_append, chainSeg_cons, lastLink_cons, ih, firstLink_append]
    tauto

theorem chainSeg_congr {h₁ h₂ : DHeap α} {ids : List Nat} {pr nx : Option Nat}
    (hag : ∀ i ∈ ids, h₂ i = h₁ i) (hch : chainSegP h₁ pr ids nx) :
    chainSegP h₂ pr ids nx := by
  induction ids generalizing pr with
  | nil => trivial
  | cons i l ih =>
    obtain ⟨n, hn, hp, hx, hc⟩ := hch
    exact ⟨n, (hag i (by simp)).trans hn, hp, hx,
      ih (fun j hj => hag j (by simp [hj])) hc⟩

theorem chainSeg_mem_isSome {h : DHeap α} {ids : List Nat} {pr nx : Option Nat}
    (hch : chainSegP h pr ids nx) : ∀ i ∈ ids, (h i).isSome := by
  induction ids generalizing pr with
  | nil => intro i hi; cases hi
  | cons j l ih =>
    intro i hi
    obtain ⟨n, hn, -, -, hc⟩ := hch
    rcases List.mem_cons.mp hi with rfl | hi
    · simp [hn]
    · exact ih hc i hi

theorem chainSeg_set_last_next {h : DHeap α} {pre₀ : List Nat} {t : Nat} {pr nx : Option Nat}
    (q : Option Nat) (ht : t ∉ pre₀) (hch : chainSegP h pr (pre₀ ++ [t]) nx) :
    chainSegP (setNextAt h t q) pr (pre₀ ++ [t]) q := by
  rcases chainSeg_append.mp hch with ⟨hpre, hlast⟩
  obtain ⟨n, hn, hp, hx, -⟩ := hlast
  refine chainSeg_append.mpr ⟨?_, ?_⟩
  · exact chainSeg_congr
      (fun i hi => setNextAt_ne q (fun he => ht (he ▸ hi))) hpre
  · exact ⟨⟨n.data, q, n.prev⟩, setNextAt_self q hn, hp, rfl, trivial⟩

theorem chainSeg_set_first_prev {h : DHeap α} {c : Nat} {post₀ : List Nat} {pr nx : Option Nat}
    (q : Option Nat) (hc : c ∉ post₀) (hch : chainSegP h pr (c :: post₀) nx) :
    chainSegP (setPrevAt h c q) q (c :: post₀) nx := by
  obtain ⟨n, hn, -, hx, hrest⟩ := hch
  exact ⟨⟨n.data, n.next, q⟩, setPrevAt_self q hn, rfl, hx,
    chainSeg_congr (fun i hi => setPrevAt_ne q (fun he => hc (he ▸ hi))) hrest⟩

theorem dmap_nil (h : DHeap α) : dmap h ([] : List Nat) = [] := rfl

theorem dmap_cons_some {h : DHeap α} {i : Nat} {n : DNode α} (ids : List Nat)
    (hn : h i = some n) : dmap h (i :: ids) = n.data :: dmap h ids := by
  simp [dmap, dataAt, hn]

theorem dmap_append (h : DHeap α) (xs ys : List Nat) :
    dmap h (xs ++ ys) = dmap h xs ++ dmap h ys := by
  simp [dmap]

theorem dmap_congr {h₁ h₂ : DHeap α} {ids : List Nat} (hag : ∀ i ∈ ids, h₂ i = h₁ i) :
    dmap h₂ ids = dmap h₁ ids := by
  induction ids with
  | nil => rfl
  | cons i l ih =>
    have hi : dataAt h₂ i = dataAt h₁ i := by
      unfold dataAt
      rw [hag i (by simp)]
    simp only [dmap, List.filterMap_cons] at *
    rw [hi, ih (fun j hj => hag j (by simp [hj]))]

theorem dmap_length_chain {h : DHeap α} {ids : List Nat} {pr nx : Option Nat}
    (hch : chainSegP h pr ids nx) : (dmap h ids).length = ids.length := by
  induction ids generalizing pr with
  | nil => rfl
  | cons i l ih =>
    obtain ⟨n, hn, -, -, hc⟩ := hch
    rw [dmap_cons_some l hn]
    simp [ih hc]

theorem traverseNext_chain {h : DHeap α} {ids : List Nat} {pr : Option Nat}
    (hch : chainSegP h pr ids none) :
    ∀ {fuel : Nat}, ids.length ≤ fuel → traverseNext h fuel (firstLink ids none) = dmap h ids := by
  induction ids generalizing pr with
  | nil =>
    intro fuel _
    cases fuel <;> rfl
  | cons i l ih =>
    intro fuel hf
    obtain ⟨n, hn, -, hx, hrest⟩ := hch
    cases fuel with
    | zero => simp at hf
    | succ f =>
      show traverseNext h (f + 1) (some i) = _
      simp only [traverseNext, hn]
      rw [hx, ih hrest (Nat.le_of_succ_le_succ hf), dmap_cons_some l hn]

theorem traversePrev_chain {h : DHeap α} {ids : List Nat} {nx : Option Nat}
    (hch : chainSegP h none ids nx) :
    ∀ {fuel : Nat}, ids.length ≤ fuel →
      traversePrev h fuel (lastLink ids none) = (dmap h ids).reverse := by
  induction ids using List.reverseRecOn generalizing nx with
  | nil =>
    intro fuel _
    cases fuel <;> rfl
  | append_singleton xs x ih =>
    intro fuel hf
    rcases chainSeg_append.mp hch with ⟨hxs, hx⟩
    obtain ⟨n, hn, hp, -, -⟩ := hx
    rw [lastLink_concat]
    cases fuel with
    | zero => simp at hf
    | succ f =>
      show traversePrev h (f + 1) (some x) = _
      simp only [traversePrev, hn]
      rw [hp, ih hxs (by simp at hf; omega), dmap_append, dmap_cons_some [] hn, dmap_nil]
      simp

theorem Rep.toList_eq {L : ListS α} {ids : List Nat} (h : Rep L ids) :
    toList L = dmap L.heap ids := by
  unfold toList
  rw [h.head_eq]
  exact traverseNext_chain h.chain (by rw [h.size_eq]; omega)

theorem Rep.toListRev_eq {L : ListS α} {ids : List Nat} (h : Rep L ids) :
    toListRev L = (dmap L.heap ids).reverse := by
  unfold toListRev
  rw [h.tail_eq]
  exact traversePrev_chain h.chain (by rw [h.size_eq]; omega)

end ListS

namespace ListS

variable {α : Type}

theorem eq_nil_or_append_singleton {β : Type} (l : List β) :
    l = [] ∨ ∃ l₀ b, l = l₀ ++ [b] := by
  rcases List.eq_nil_or_concat l with h | ⟨l₀, b, h⟩
  · exact Or.inl h
  · exact Or.inr ⟨l₀, b, by rw [h, List.concat_eq_append]⟩

theorem Rep.nextId_not_mem {L : ListS α} {ids : List Nat} (h : Rep L ids) :
    L.nextId ∉ ids :=
  fun hm => absurd (h.fresh _ hm) (lt_irrefl _)

theorem Rep.nextId_free {L : ListS α} {ids : List Nat} (h : Rep L ids) :
    L.heap L.nextId = none := by
  rcases hh : L.heap L.nextId with _ | n
  · rfl
  · exact absurd ((h.dom _).mp (by simp [hh])) h.nextId_not_mem

theorem dom_add {h g : DHeap α} {ids : List Nat} {p : Nat}
    (hdom : ∀ k, (h k).isSome ↔ k ∈ ids)
    (hp : (g p).isSome)
    (hup : ∀ k, k ≠ p → ((g k).isSome ↔ (h k).isSome)) :
    ∀ k, (g k).isSome ↔ (k = p ∨ k ∈ ids) := by
  intro k
  by_cases hk : k = p
  · subst hk
    simp [hp]
  · rw [hup k hk, hdom]
    simp [hk]

theorem dom_remove {h g : DHeap α} {ids : List Nat} {c : Nat}
    (hdom : ∀ k, (h k).isSome ↔ k ∈ ids)
    (hc : g c = none)
    (hup : ∀ k, k ≠ c → ((g k).isSome ↔ (h k).isSome)) :
    ∀ k, (g k).isSome ↔ (k ≠ c ∧ k ∈ ids) := by
  intro k
  by_cases hk : k = c
  · subst hk
    simp [hc]
  · rw [hup k hk, hdom]
    simp [hk]

theorem push_back_spec {L : ListS α} {ids : List Nat} (v : α) (h : Rep L ids) :
    Rep (L.push_back v) (ids ++ [L.nextId])
    ∧ (∀ k, k ≠ L.nextId → dataAt (L.push_back v).heap k = dataAt L.heap k)
    ∧ dataAt (L.push_back v).heap L.nextId = some v
    ∧ (L.push_back v).nextId = L.nextId + 1 := by
  have hpfree : L.heap L.nextId = none := h.nextId_free
  have hpmem : L.nextId ∉ ids := h.nextId_not_mem
  rcases eq_nil_or_append_singleton ids with rfl | ⟨init, t, rfl⟩
  · have hhd : L.head = none := h.head_eq
    have hpb : L.push_back v =
        ⟨hupd L.heap L.nextId ⟨v, none, none⟩, some L.nextId, some L.nextId,
          L.size + 1, L.nextId + 1⟩ := by
      simp only [push_back, hhd]
    have hheap : (L.push_back v).heap = hupd L.heap L.nextId ⟨v, none, none⟩ := by
      rw [hpb]
    have hhead : (L.push_back v).head = some L.nextId := by rw [hpb]
    have htail : (L.push_back v).tail = some L.nextId := by rw [hpb]
    have hsize : (L.push_back v).size = L.size + 1 := by rw [hpb]
    have hnid : (L.push_back v).nextId = L.nextId + 1 := by rw [hpb]
    refine ⟨⟨?_, ?_, ?_, ?_, ?_, ?_, ?_⟩, ?_, ?_, hnid⟩
    · rw [hheap]
      exact ⟨⟨v, none, none⟩, hupd_self L.heap L.nextId ⟨v, none, none⟩, rfl, rfl, trivial⟩
    · rw [hhead]
      rfl
    · rw [htail]
      rfl
    · rw [hsize, h.size_eq]
      simp
    · intro k
      rw [hheap]
      have := dom_add (p := L.nextId) (g := hupd L.heap L.nextId ⟨v, none, none⟩) h.dom
        (by simp [hupd_self]) (fun k hk => by rw [hupd_ne _ _ hk]) k
      rw [this]
      simp
    · simp
    · intro k hk
      rw [hnid]
      simp at hk
      subst hk
      exact Nat.lt_succ_self _
    · intro k hk
      rw [hheap]
      exact dataAt_hupd_ne _ _ hk
    · rw [hheap]
      exact dataAt_hupd_self ..
  · -- nonempty list: the new node is linked after the tail
    have hne : init ++ [t] ≠ [] := by simp
    have htmem : t ∈ init ++ [t] := by simp
    have htp : t ≠ L.nextId := fun he => hpmem (he ▸ htmem)
    obtain ⟨nt, hnt⟩ := Option.isSome_iff_exists.mp (chainSeg_mem_isSome h.chain t htmem)
    have htail0 : L.tail = some t := by
      rw [h.tail_eq, lastLink_concat]
    have hhead0 : ∃ hd, L.head = some hd := by
      cases init with
      | nil => exact ⟨t, h.head_eq⟩
      | cons a l => exact ⟨a, h.head_eq⟩
    obtain ⟨hd, hh⟩ := hhead0
    have hti : t ∉ init := by
      have hnd := h.nodup
      rw [List.nodup_append] at hnd
      intro hmem
      exact hnd.2.2 hmem (by simp)
    have hpb : L.push_back v =
        ⟨setPrevAt (setNextAt (hupd L.heap L.nextId ⟨v, none, none⟩) t (some L.nextId))
            L.nextId (some t), L.head, some L.nextId, L.size + 1, L.nextId + 1⟩ := by
      simp only [push_back, hh, htail0]
      rfl
    have hheap : (L.push_back v).heap =
        setPrevAt (setNextAt (hupd L.heap L.nextId ⟨v, none, none⟩) t (some L.nextId))
          L.nextId (some t) := by
      rw [hpb]
    have hhead : (L.push_back v).head = L.head := by rw [hpb]
    have htail : (L.push_back v).tail = some L.nextId := by rw [hpb]
    have hsize : (L.push_back v).size = L.size + 1 := by rw [hpb]
    have hnid : (L.push_back v).nextId = L.nextId + 1 := by rw [hpb]
    -- pointwise description of the new store
    have h0t : hupd L.heap L.nextId ⟨v, none, none⟩ t = some nt := by
      rw [hupd_ne _ _ htp, hnt]
    have h1t : setNextAt (hupd L.heap L.nextId ⟨v, none, none⟩) t (some L.nextId) t =
        some ⟨nt.data, some L.nextId, nt.prev⟩ := setNextAt_self _ h0t
    have h2t : setPrevAt (setNextAt (hupd L.heap L.nextId ⟨v, none, none⟩) t (some L.nextId))
        L.nextId (some t) t = some ⟨nt.data, some L.nextId, nt.prev⟩ := by
      rw [setPrevAt_ne _ htp, h1t]
    have h1p : setNextAt (hupd L.heap L.nextId ⟨v, none, none⟩) t (some L.nextId) L.nextId =
        some ⟨v, none, none⟩ := by
      rw [setNextAt_ne _ (Ne.symm htp), hupd_self]
    have h2p : setPrevAt (setNextAt (hupd L.heap L.nextId ⟨v, none, none⟩) t (some L.nextId))
        L.nextId (some t) L.nextId = some ⟨v, none, some t⟩ := by
      rw [setPrevAt_of_eq _ h1p, hupd_self]
    have h2other : ∀ k, k ≠ L.nextId → k ≠ t →
        setPrevAt (setNextAt (hupd L.heap L.nextId ⟨v, none, none⟩) t (some L.nextId))
          L.nextId (some t) k = L.heap k := by
      intro k hk1 hk2
      rw [setPrevAt_ne _ hk1, setNextAt_ne _ hk2, hupd_ne _ _ hk1]
    -- the chain of the extended identifier list
    have hch1 : chainSegP (hupd L.heap L.nextId ⟨v, none, none⟩) none (init ++ [t]) none :=
      chainSeg_congr (fun i hi => hupd_ne _ _ (fun he => hpmem (he ▸ hi))) h.chain
    have hch2 : chainSegP (setNextAt (hupd L.heap L.nextId ⟨v, none, none⟩) t (some L.nextId))
        none (init ++ [t]) (some L.nextId) :=
      chainSeg_set_last_next _ hti hch1
    have hch3 : chainSegP (setPrevAt
          (setNextAt (hupd L.heap L.nextId ⟨v, none, none⟩) t (some L.nextId))
          L.nextId (some t)) none (init ++ [t]) (some L.nextId) :=
      chainSeg_congr
        (fun i hi => setPrevAt_ne _ (fun he => hpmem (he ▸ hi))) hch2
    refine ⟨⟨?_, ?_, ?_, ?_, ?_, ?_, ?_⟩, ?_, ?_, hnid⟩
    · rw [hheap]
      exact chainSeg_append.mpr ⟨hch3,
        ⟨⟨v, none, some t⟩, h2p, by rw [lastLink_concat], rfl, trivial⟩⟩
    · rw [hhead, h.head_eq]
      conv_rhs => rw [firstLink_append]
      exact firstLink_irrel hne _ _
    · rw [htail, lastLink_concat]
    · rw [hsize, h.size_eq]
      simp
    · intro k
      rw [hheap]
      have := dom_add (p := L.nextId)
        (g := setPrevAt (setNextAt (hupd L.heap L.nextId ⟨v, none, none⟩) t (some L.nextId))
          L.nextId (some t)) h.dom (by simp [h2p])
        (fun k hk => by
          by_cases hkt : k = t
          · subst hkt
            simp [h2t, hnt]
          · rw [h2other k hk hkt]) k
      rw [this]
      simp only [List.mem_append, List.mem_singleton]
      tauto
    · rw [List.nodup_append]
      refine ⟨h.nodup, List.nodup_singleton _, ?_⟩
      intro a ha hb
      simp at hb
      subst hb
      exact hpmem ha
    · intro k hk
      rw [hnid]
      rcases List.mem_append.mp hk with hk | hk
      · exact Nat.lt_succ_of_lt (h.fresh k hk)
      · simp at hk
        omega
    · intro k hk
      rw [hheap, dataAt_setPrevAt, dataAt_setNextAt, dataAt_hupd_ne _ _ hk]
    · rw [hheap]
      unfold dataAt
      rw [h2p]
      rfl

theorem push_front_spec {L : ListS α} {ids : List Nat} (v : α) (h : Rep L ids) :
    Rep (L.push_front v) (L.nextId :: ids)
    ∧ (∀ k, k ≠ L.nextId → dataAt (L.push_front v).heap k = dataAt L.heap k)
    ∧ dataAt (L.push_front v).heap L.nextId = some v
    ∧ (L.push_front v).nextId = L.nextId + 1 := by
  have hpfree : L.heap L.nextId = none := h.nextId_free
  have hpmem : L.nextId ∉ ids := h.nextId_not_mem
  cases ids with
  | nil =>
    have hhd : L.head = none := h.head_eq
    have hpb : L.push_front v =
        ⟨hupd L.heap L.nextId ⟨v, none, none⟩, some L.nextId, some L.nextId,
          L.size + 1, L.nextId + 1⟩ := by
      simp only [push_front, hhd]
    have hheap : (L.push_front v).heap = hupd L.heap L.nextId ⟨v, none, none⟩ := by
      rw [hpb]
    have hhead : (L.push_front v).head = some L.nextId := by rw [hpb]
    have htail : (L.push_front v).tail = some L.nextId := by rw [hpb]
    have hsize : (L.push_front v).size = L.size + 1 := by rw [hpb]
    have hnid : (L.push_front v).nextId = L.nextId + 1 := by rw [hpb]
    refine ⟨⟨?_, ?_, ?_, ?_, ?_, ?_, ?_⟩, ?_, ?_, hnid⟩
    · rw [hheap]
      exact ⟨⟨v, none, none⟩, hupd_self L.heap L.nextId ⟨v, none, none⟩, rfl, rfl, trivial⟩
    · rw [hhead]
      rfl
    · rw [htail]
      rfl
    · rw [hsize, h.size_eq]
      simp
    · intro k
      rw [hheap]
      have := dom_add (p := L.nextId) (g := hupd L.heap L.nextId ⟨v, none, none⟩) h.dom
        (by simp [hupd_self]) (fun k hk => by rw [hupd_ne _ _ hk]) k
      rw [this]
      simp
    · simp
    · intro k hk
      rw [hnid]
      simp at hk
      subst hk
      exact Nat.lt_succ_self _
    · intro k hk
      rw [hheap]
      exact dataAt_hupd_ne _ _ hk
    · rw [hheap]
      exact dataAt_hupd_self ..
  | cons c rest =>
    have hcmem : c ∈ c :: rest := by simp
    have hcp : c ≠ L.nextId := fun he => hpmem (he ▸ hcmem)
    obtain ⟨nc, hnc⟩ := Option.isSome_iff_exists.mp (chainSeg_mem_isSome h.chain c hcmem)
    have hhd : L.head = some c := h.head_eq
    have hcr : c ∉ rest := (List.nodup_cons.mp h.nodup).1
    have hpb : L.push_front v =
        ⟨setNextAt (setPrevAt (hupd L.heap L.nextId ⟨v, none, none⟩) c (some L.nextId))
            L.nextId (some c), some L.nextId, L.tail, L.size + 1, L.nextId + 1⟩ := by
      simp only [push_front, hhd]
    have hheap : (L.push_front v).heap =
        setNextAt (setPrevAt (hupd L.heap L.nextId ⟨v, none, none⟩) c (some L.nextId))
          L.nextId (some c) := by
      rw [hpb]
    have hhead : (L.push_front v).head = some L.nextId := by rw [hpb]
    have htail : (L.push_front v).tail = L.tail := by rw [hpb]
    have hsize : (L.push_front v).size = L.size + 1 := by rw [hpb]
    have hnid : (L.push_front v).nextId = L.nextId + 1 := by rw [hpb]
    have h0c : hupd L.heap L.nextId ⟨v, none, none⟩ c = some nc := by
      rw [hupd_ne _ _ hcp, hnc]
    have h1c : setPrevAt (hupd L.heap L.nextId ⟨v, none, none⟩) c (some L.nextId) c =
        some ⟨nc.data, nc.next, some L.nextId⟩ := setPrevAt_self _ h0c
    have h2c : setNextAt (setPrevAt (hupd L.heap L.nextId ⟨v, none, none⟩) c (some L.nextId))
        L.nextId (some c) c = some ⟨nc.data, nc.next, some L.nextId⟩ := by
      rw [setNextAt_ne _ hcp, h1c]
    have h1p : setPrevAt (hupd L.heap L.nextId ⟨v, none, none⟩) c (some L.nextId) L.nextId =
        some ⟨v, none, none⟩ := by
      rw [setPrevAt_ne _ (Ne.symm hcp), hupd_self]
    have h2p : setNextAt (setPrevAt (hupd L.heap L.nextId ⟨v, none, none⟩) c (some L.nextId))
        L.nextId (some c) L.nextId = some ⟨v, some c, none⟩ := by
      rw [setNextAt_of_eq _ h1p, hupd_self]
    have h2other : ∀ k, k ≠ L.nextId → k ≠ c →
        setNextAt (setPrevAt (hupd L.heap L.nextId ⟨v, none, none⟩) c (some L.nextId))
          L.nextId (some c) k = L.heap k := by
      intro k hk1 hk2
      rw [setNextAt_ne _ hk1, setPrevAt_ne _ hk2, hupd_ne _ _ hk1]
    have hch1 : chainSegP (hupd L.heap L.nextId ⟨v, none, none⟩) none (c :: rest) none :=
      chainSeg_congr (fun i hi => hupd_ne _ _ (fun he => hpmem (he ▸ hi))) h.chain
    have hch2 : chainSegP (setPrevAt (hupd L.heap L.nextId ⟨v, none, none⟩) c (some L.nextId))
        (some L.nextId) (c :: rest) none :=
      chainSeg_set_first_prev _ hcr hch1
    have hch3 : chainSegP (setNextAt
          (setPrevAt (hupd L.heap L.nextId ⟨v, none, none⟩) c (some L.nextId))
          L.nextId (some c)) (some L.nextId) (c :: rest) none :=
      chainSeg_congr
        (fun i hi => setNextAt_ne _ (fun he => hpmem (he ▸ hi))) hch2
    refine ⟨⟨?_, ?_, ?_, ?_, ?_, ?_, ?_⟩, ?_, ?_, hnid⟩
    · rw [hheap]
      exact ⟨⟨v, some c, none⟩, h2p, rfl, rfl, hch3⟩
    · rw [hhead]
      rfl
    · rw [htail, h.tail_eq]
      rw [lastLink_cons, lastLink_cons, lastLink_cons]
    · rw [hsize, h.size_eq]
      simp
    · intro k
      rw [hheap]
      have := dom_add (p := L.nextId)
        (g := setNextAt (setPrevAt (hupd L.heap L.nextId ⟨v, none, none⟩) c (some L.nextId))
          L.nextId (some c)) h.dom (by simp [h2p])
        (fun k hk => by
          by_cases hkc : k = c
          · subst hkc
            simp [h2c, hnc]
          · rw [h2other k hk hkc]) k
      rw [this]
      simp only [List.mem_cons]
    · exact List.nodup_cons.mpr ⟨hpmem, h.nodup⟩
    · intro k hk
      rw [hnid]
      rcases List.mem_cons.mp hk with rfl | hk
      · exact Nat.lt_succ_self _
      · exact Nat.lt_succ_of_lt (h.fresh k hk)
    · intro k hk
      rw [hheap, dataAt_setNextAt, dataAt_setPrevAt, dataAt_hupd_ne _ _ hk]
    · rw [hheap]
      unfold dataAt
      rw [h2p]
      rfl

theorem rep_emptyList : Rep (emptyList : ListS α) [] := by
  refine ⟨trivial, rfl, rfl, rfl, ?_, List.nodup_nil, ?_⟩
  · intro k
    simp [emptyList]
  · intro k hk
    cases hk

theorem emplace_front_eq (L : ListS α) (v : α) : L.emplace_front v = L.push_front v := rfl

theorem emplace_back_eq {L : ListS α} {ids : List Nat} (v : α) (h : Rep L ids) :
    L.emplace_back v = L.push_back v := by
  rcases eq_nil_or_append_singleton ids with rfl | ⟨init, t, rfl⟩
  · have hhd : L.head = none := h.head_eq
    have htl : L.tail = none := h.tail_eq
    simp only [emplace_back, push_back, hhd, htl]
  · have htl : L.tail = some t := by rw [h.tail_eq, lastLink_concat]
    have hhd : ∃ hd, L.head = some hd := by
      cases init with
      | nil => exact ⟨t, h.head_eq⟩
      | cons a l => exact ⟨a, h.head_eq⟩
    obtain ⟨hd, hh⟩ := hhd
    simp only [emplace_back, push_back, hh, htl]
    rfl

theorem insert_none_eq (L : ListS α) (v : α) :
    L.insert none v = (L.push_back v, L.nextId) := by
  cases hh : L.head <;> simp only [insert, push_back, hh]

theorem insert_spec {L : ListS α} {pre post : List Nat} (v : α) (h : Rep L (pre ++ post)) :
    Rep (L.insert (firstLink post none) v).1 (pre ++ L.nextId :: post)
    ∧ (L.insert (firstLink post none) v).2 = L.nextId
    ∧ (∀ k, k ≠ L.nextId → dataAt (L.insert (firstLink post none) v).1.heap k = dataAt L.heap k)
    ∧ dataAt (L.insert (firstLink post none) v).1.heap L.nextId = some v
    ∧ (L.insert (firstLink post none) v).1.nextId = L.nextId + 1 := by
  cases post with
  | nil =>
    rw [firstLink_nil]
    rw [List.append_nil] at h
    have hs := push_back_spec v h
    have he : L.insert none v = (L.push_back v, L.nextId) := insert_none_eq L v
    rw [he]
    exact ⟨hs.1, rfl, hs.2.1, hs.2.2.1, hs.2.2.2⟩
  | cons c post₀ =>
    rw [firstLink_cons]
    have hpfree : L.heap L.nextId = none := h.nextId_free
    have hpmem : L.nextId ∉ pre ++ c :: post₀ := h.nextId_not_mem
    have hppre : L.nextId ∉ pre := fun hm => hpmem (List.mem_append.mpr (Or.inl hm))
    have hppost : L.nextId ∉ c :: post₀ := fun hm => hpmem (List.mem_append.mpr (Or.inr hm))
    have hcp : c ≠ L.nextId := fun he => hppost (he ▸ (by simp : c ∈ c :: post₀))
    have hnd := h.nodup
    rw [List.nodup_append] at hnd
    have hcpre : c ∉ pre := fun hm => hnd.2.2 hm (by simp)
    have hcpost : c ∉ post₀ := (List.nodup_cons.mp hnd.2.1).1
    rcases eq_nil_or_append_singleton pre with rfl | ⟨pre₀, b, rfl⟩
    · -- insertion before the head node
      simp only [List.nil_append] at h hpmem ⊢
      obtain ⟨nc, hnc, hncprev, hncnext, hpost⟩ := h.chain
      have hhd : L.head = some c := h.head_eq
      have hpb : L.insert (some c) v =
          (⟨setPrevAt (setNextAt (hupd L.heap L.nextId ⟨v, none, none⟩) L.nextId (some c))
              c (some L.nextId), some L.nextId, L.tail, L.size + 1, L.nextId + 1⟩,
            L.nextId) := by
        simp only [insert, hhd, if_true]
        rfl
      have hheap : (L.insert (some c) v).1.heap =
          setPrevAt (setNextAt (hupd L.heap L.nextId ⟨v, none, none⟩) L.nextId (some c))
            c (some L.nextId) := by
        rw [hpb]
      have hhead : (L.insert (some c) v).1.head = some L.nextId := by rw [hpb]
      have htail : (L.insert (some c) v).1.tail = L.tail := by rw [hpb]
      have hsize : (L.insert (some c) v).1.size = L.size + 1 := by rw [hpb]
      have hnid : (L.insert (some c) v).1.nextId = L.nextId + 1 := by rw [hpb]
      have hret : (L.insert (some c) v).2 = L.nextId := by rw [hpb]
      have h0c : hupd L.heap L.nextId ⟨v, none, none⟩ c = some nc := by
        rw [hupd_ne _ _ hcp, hnc]
      have h1c : setNextAt (hupd L.heap L.nextId ⟨v, none, none⟩) L.nextId (some c) c =
          some nc := by
        rw [setNextAt_ne _ hcp, h0c]
      have h2c : setPrevAt (setNextAt (hupd L.heap L.nextId ⟨v, none, none⟩) L.nextId (some c))
          c (some L.nextId) c = some ⟨nc.data, nc.next, some L.nextId⟩ :=
        setPrevAt_self _ h1c
      have h1p : setNextAt (hupd L.heap L.nextId ⟨v, none, none⟩) L.nextId (some c) L.nextId =
          some ⟨v, some c, none⟩ := by
        rw [setNextAt_of_eq _ (hupd_self ..), hupd_self]
      have h2p : setPrevAt (setNextAt (hupd L.heap L.nextId ⟨v, none, none⟩) L.nextId (some c))
          c (some L.nextId) L.nextId = some ⟨v, some c, none⟩ := by
        rw [setPrevAt_ne _ (Ne.symm hcp), h1p]
      have h2other : ∀ k, k ≠ L.nextId → k ≠ c →
          setPrevAt (setNextAt (hupd L.heap L.nextId ⟨v, none, none⟩) L.nextId (some c))
            c (some L.nextId) k = L.heap k := by
        intro k hk1 hk2
        rw [setPrevAt_ne _ hk2, setNextAt_ne _ hk1, hupd_ne _ _ hk1]
      have hch1 : chainSegP (hupd L.heap L.nextId ⟨v, none, none⟩) none (c :: post₀) none :=
        chainSeg_congr (fun i hi => hupd_ne _ _ (fun he => hpmem (he ▸ hi))) h.chain
      have hch2 : chainSegP
          (setNextAt (hupd L.heap L.nextId ⟨v, none, none⟩) L.nextId (some c))
          none (c :: post₀) none :=
        chainSeg_congr (fun i hi => setNextAt_ne _ (fun he => hpmem (he ▸ hi))) hch1
      have hch3 : chainSegP
          (setPrevAt (setNextAt (hupd L.heap L.nextId ⟨v, none, none⟩) L.nextId (some c))
            c (some L.nextId)) (some L.nextId) (c :: post₀) none :=
        chainSeg_set_first_prev _ hcpost hch2
      refine ⟨⟨?_, ?_, ?_, ?_, ?_, ?_, ?_⟩, hret, ?_, ?_, hnid⟩
      · rw [hheap]
        exact ⟨⟨v, some c, none⟩, h2p, rfl, rfl, hch3⟩
      · rw [hhead]
        rfl
      · rw [htail, h.tail_eq]
        rw [lastLink_cons, lastLink_cons, lastLink_cons]
      · rw [hsize, h.size_eq]
        simp
      · intro k
        rw [hheap]
        have := dom_add (p := L.nextId)
          (g := setPrevAt
            (setNextAt (hupd L.heap L.nextId ⟨v, none, none⟩) L.nextId (some c))
            c (some L.nextId)) h.dom (by simp [h2p])
          (fun k hk => by
            by_cases hkc : k = c
            · subst hkc
              simp [h2c, hnc]
            · rw [h2other k hk hkc]) k
        rw [this]
        simp only [List.mem_cons]
      · exact List.nodup_cons.mpr ⟨hppost, h.nodup⟩
      · intro k hk
        rw [hnid]
        rcases List.mem_cons.mp hk with rfl | hk
        · exact Nat.lt_succ_self _
        · exact Nat.lt_succ_of_lt (h.fresh k hk)
      · intro k hk
        rw [hheap, dataAt_setPrevAt, dataAt_setNextAt, dataAt_hupd_ne _ _ hk]
      · rw [hheap]
        unfold dataAt
        rw [h2p]
        rfl
    · -- insertion before an interior or final node
      have hsplit := chainSeg_append.mp h.chain
      have hpreC : chainSegP L.heap none (pre₀ ++ [b]) (some c) := hsplit.1
      have hpostC : chainSegP L.heap (some b) (c :: post₀) none := by
        have := hsplit.2
        rwa [lastLink_concat] at this
      obtain ⟨nc, hnc, hncprev, hncnext, hpost⟩ := hpostC
      have hpostC2 : chainSegP L.heap (some b) (c :: post₀) none :=
        ⟨nc, hnc, hncprev, hncnext, hpost⟩
      have hbmem : b ∈ pre₀ ++ [b] := by simp
      obtain ⟨nb, hnb⟩ := Option.isSome_iff_exists.mp (chainSeg_mem_isSome hpreC b hbmem)
      have hbp : b ≠ L.nextId := fun he => hppre (he ▸ hbmem)
      have hbc : b ≠ c := fun he => hnd.2.2 hbmem (by rw [he]; simp)
      have hbpre₀ : b ∉ pre₀ := by
        rw [List.nodup_append] at hnd
        intro hmem
        exact hnd.1.2.2 hmem (by simp)
      have hhdne : L.head ≠ some c := by
        have hex : L.head = firstLink (pre₀ ++ [b]) (some c) := by
          rw [h.head_eq, firstLink_append, firstLink_cons]
        intro heq
        cases pre₀ with
        | nil =>
          rw [hex] at heq
          simp [firstLink] at heq
          exact hbc heq
        | cons x xs =>
          rw [hex] at heq
          simp [firstLink] at heq
          exact hcpre (by rw [heq]; simp)
      have hcprevEq : (hupd L.heap L.nextId ⟨v, none, none⟩ c).bind DNode.prev = some b := by
        rw [hupd_ne _ _ hcp, hnc]
        exact hncprev
      have hpb : L.insert (some c) v =
          (⟨setPrevAt (setNextAt (setPrevAt
                (setNextAt (hupd L.heap L.nextId ⟨v, none, none⟩) L.nextId (some c))
                L.nextId (some b)) b (some L.nextId)) c (some L.nextId),
              L.head, L.tail, L.size + 1, L.nextId + 1⟩, L.nextId) := by
        simp only [insert]
        rw [if_neg hhdne, hcprevEq]
        rfl
      have hheap : (L.insert (some c) v).1.heap =
          setPrevAt (setNextAt (setPrevAt
            (setNextAt (hupd L.heap L.nextId ⟨v, none, none⟩) L.nextId (some c))
            L.nextId (some b)) b (some L.nextId)) c (some L.nextId) := by
        rw [hpb]
      have hhead : (L.insert (some c) v).1.head = L.head := by rw [hpb]
      have htail : (L.insert (some c) v).1.tail = L.tail := by rw [hpb]
      have hsize : (L.insert (some c) v).1.size = L.size + 1 := by rw [hpb]
      have hnid : (L.insert (some c) v).1.nextId = L.nextId + 1 := by rw [hpb]
      have hret : (L.insert (some c) v).2 = L.nextId := by rw [hpb]
      have h1p : setNextAt (hupd L.heap L.nextId ⟨v, none, none⟩) L.nextId (some c) L.nextId =
          some ⟨v, some c, none⟩ := by
        rw [setNextAt_of_eq _ (hupd_self ..), hupd_self]
      have h2p : setPrevAt (setNextAt (hupd L.heap L.nextId ⟨v, none, none⟩) L.nextId (some c))
          L.nextId (some b) L.nextId = some ⟨v, some c, some b⟩ := by
        rw [setPrevAt_of_eq _ h1p, hupd_self]
      have h3p : setNextAt (setPrevAt
          (setNextAt (hupd L.heap L.nextId ⟨v, none, none⟩) L.nextId (some c))
          L.nextId (some b)) b (some L.nextId) L.nextId = some ⟨v, some c, some b⟩ := by
        rw [setNextAt_ne _ (Ne.symm hbp), h2p]
      have h4p : setPrevAt (setNextAt (setPrevAt
          (setNextAt (hupd L.heap L.nextId ⟨v, none, none⟩) L.nextId (some c))
          L.nextId (some b)) b (some L.nextId)) c (some L.nextId) L.nextId =
          some ⟨v, some c, some b⟩ := by
        rw [setPrevAt_ne _ (Ne.symm hcp), h3p]
      have h2b : setPrevAt (setNextAt (hupd L.heap L.nextId ⟨v, none, none⟩) L.nextId (some c))
          L.nextId (some b) b = some nb := by
        rw [setPrevAt_ne _ hbp, setNextAt_ne _ hbp, hupd_ne _ _ hbp, hnb]
      have h3b : setNextAt (setPrevAt
          (setNextAt (hupd L.heap L.nextId ⟨v, none, none⟩) L.nextId (some c))
          L.nextId (some b)) b (some L.nextId) b = some ⟨nb.data, some L.nextId, nb.prev⟩ :=
        setNextAt_self _ h2b
      have h4b : setPrevAt (setNextAt (setPrevAt
          (setNextAt (hupd L.heap L.nextId ⟨v, none, none⟩) L.nextId (some c))
          L.nextId (some b)) b (some L.nextId)) c (some L.nextId) b =
          some ⟨nb.data, some L.nextId, nb.prev⟩ := by
        rw [setPrevAt_ne _ hbc, h3b]
      have h3c : setNextAt (setPrevAt
          (setNextAt (hupd L.heap L.nextId ⟨v, none, none⟩) L.nextId (some c))
          L.nextId (some b)) b (some L.nextId) c = some nc := by
        rw [setNextAt_ne _ (Ne.symm hbc), setPrevAt_ne _ hcp, setNextAt_ne _ hcp,
          hupd_ne _ _ hcp, hnc]
      have h4c : setPrevAt (setNextAt (setPrevAt
          (setNextAt (hupd L.heap L.nextId ⟨v, none, none⟩) L.nextId (some c))
          L.nextId (some b)) b (some L.nextId)) c (some L.nextId) c =
          some ⟨nc.data, nc.next, some L.nextId⟩ :=
        setPrevAt_self _ h3c
      have h4other : ∀ k, k ≠ L.nextId → k ≠ b → k ≠ c →
          setPrevAt (setNextAt (setPrevAt
            (setNextAt (hupd L.heap L.nextId ⟨v, none, none⟩) L.nextId (some c))
            L.nextId (some b)) b (some L.nextId)) c (some L.nextId) k = L.heap k := by
        intro k hk1 hk2 hk3
        rw [setPrevAt_ne _ hk3, setNextAt_ne _ hk2, setPrevAt_ne _ hk1, setNextAt_ne _ hk1,
          hupd_ne _ _ hk1]
      -- the chain over the prefix, with its last node redirected to the new node
      have hchA : chainSegP (setPrevAt
          (setNextAt (hupd L.heap L.nextId ⟨v, none, none⟩) L.nextId (some c))
          L.nextId (some b)) none (pre₀ ++ [b]) (some c) := by
        refine chainSeg_congr ?_ hpreC
        intro i hi
        have hip : i ≠ L.nextId := fun he => hppre (he ▸ hi)
        rw [setPrevAt_ne _ hip, setNextAt_ne _ hip, hupd_ne _ _ hip]
      have hchB : chainSegP (setNextAt (setPrevAt
          (setNextAt (hupd L.heap L.nextId ⟨v, none, none⟩) L.nextId (some c))
          L.nextId (some b)) b (some L.nextId)) none (pre₀ ++ [b]) (some L.nextId) :=
        chainSeg_set_last_next _ hbpre₀ hchA
      have hchPre : chainSegP (setPrevAt (setNextAt (setPrevAt
          (setNextAt (hupd L.heap L.nextId ⟨v, none, none⟩) L.nextId (some c))
          L.nextId (some b)) b (some L.nextId)) c (some L.nextId))
          none (pre₀ ++ [b]) (some L.nextId) :=
        chainSeg_congr (fun i hi => setPrevAt_ne _ (fun he => hcpre (he ▸ hi))) hchB
      -- the chain over the suffix, with its first node pointing back at the new node
      have hchC : chainSegP (setNextAt (setPrevAt
          (setNextAt (hupd L.heap L.nextId ⟨v, none, none⟩) L.nextId (some c))
          L.nextId (some b)) b (some L.nextId)) (some b) (c :: post₀) none := by
        refine chainSeg_congr ?_ hpostC2
        intro i hi
        have hip : i ≠ L.nextId := fun he => hppost (he ▸ hi)
        have hib : i ≠ b := fun he => hnd.2.2 (he ▸ hbmem) hi
        rw [setNextAt_ne _ hib, setPrevAt_ne _ hip, setNextAt_ne _ hip, hupd_ne _ _ hip]
      have hchPost : chainSegP (setPrevAt (setNextAt (setPrevAt
          (setNextAt (hupd L.heap L.nextId ⟨v, none, none⟩) L.nextId (some c))
          L.nextId (some b)) b (some L.nextId)) c (some L.nextId))
          (some L.nextId) (c :: post₀) none :=
        chainSeg_set_first_prev _ hcpost hchC
      refine ⟨⟨?_, ?_, ?_, ?_, ?_, ?_, ?_⟩, hret, ?_, ?_, hnid⟩
      · rw [hheap]
        exact chainSeg_append.mpr ⟨hchPre,
          ⟨⟨v, some c, some b⟩, h4p, by rw [lastLink_concat], rfl, hchPost⟩⟩
      · rw [hhead, h.head_eq]
        conv_lhs => rw [firstLink_append]
        conv_rhs => rw [firstLink_append]
        exact firstLink_irrel (by simp) _ _
      · rw [htail, h.tail_eq]
        conv_lhs => rw [lastLink_append, lastLink_cons]
        conv_rhs => rw [lastLink_append, lastLink_cons, lastLink_cons]
      · rw [hsize, h.size_eq]
        simp only [List.length_append, List.length_cons]
        omega
      · intro k
        rw [hheap]
        have := dom_add (p := L.nextId)
          (g := setPrevAt (setNextAt (setPrevAt
            (setNextAt (hupd L.heap L.nextId ⟨v, none, none⟩) L.nextId (some c))
            L.nextId (some b)) b (some L.nextId)) c (some L.nextId)) h.dom (by simp [h4p])
          (fun k hk => by
            by_cases hkc : k = c
            · subst hkc
              simp [h4c, hnc]
            · by_cases hkb : k = b
              · subst hkb
                simp [h4b, hnb]
              · rw [h4other k hk hkb hkc]) k
        rw [this]
        simp only [List.mem_append, List.mem_cons]
        tauto
      · rw [List.nodup_append]
        refine ⟨hnd.1, List.nodup_cons.mpr ⟨hppost, hnd.2.1⟩, ?_⟩
        intro a ha hb2
        rcases List.mem_cons.mp hb2 with rfl | hb2
        · exact hppre ha
        · exact hnd.2.2 ha hb2
      · intro k hk
        rw [hnid]
        rcases List.mem_append.mp hk with hk | hk
        · exact Nat.lt_succ_of_lt (h.fresh k (List.mem_append.mpr (Or.inl hk)))
        · rcases List.mem_cons.mp hk with rfl | hk
          · exact Nat.lt_succ_self _
          · exact Nat.lt_succ_of_lt (h.fresh k (List.mem_append.mpr (Or.inr hk)))
      · intro k hk
        rw [hheap, dataAt_setPrevAt, dataAt_setNextAt, dataAt_setPrevAt, dataAt_setNextAt,
          dataAt_hupd_ne _ _ hk]
      · rw [hheap]
        unfold dataAt
        rw [h4p]
        rfl

theorem lastLink_mem {xs : List Nat} {a r : Nat} (hv : lastLink xs (some a) = some r) :
    r ∈ xs ∨ r = a := by
  induction xs generalizing a with
  | nil =>
    simp only [lastLink] at hv
    right
    exact (Option.some_inj.mp hv).symm
  | cons x l ih =>
    rw [lastLink_cons] at hv
    rcases ih hv with hm | rfl
    · exact Or.inl (List.mem_cons.mpr (Or.inr hm))
    · exact Or.inl (List.mem_cons.mpr (Or.inl rfl))

theorem erase_none_eq (L : ListS α) : L.erase none = (L, none) := rfl

theorem erase_spec {L : ListS α} {pre post : List Nat} {c : Nat}
    (h : Rep L (pre ++ c :: post)) :
    Rep (L.erase (some c)).1 (pre ++ post)
    ∧ (L.erase (some c)).2 = firstLink post none
    ∧ (∀ k, k ≠ c → dataAt (L.erase (some c)).1.heap k = dataAt L.heap k) := by
  have hnd := h.nodup
  rw [List.nodup_append] at hnd
  have hcpre : c ∉ pre := fun hm => hnd.2.2 hm (by simp)
  have hcpost : c ∉ post := (List.nodup_cons.mp hnd.2.1).1
  have hndpost : post.Nodup := (List.nodup_cons.mp hnd.2.1).2
  have hsplit := chainSeg_append.mp h.chain
  have hpreC : chainSegP L.heap none pre (some c) := hsplit.1
  obtain ⟨nc, hnc, hncprev, hncnext, hpost⟩ := hsplit.2
  have hnextEq : (L.heap c).bind DNode.next = firstLink post none := by
    rw [hnc]
    exact hncnext
  have hprevEq : (L.heap c).bind DNode.prev = lastLink pre none := by
    rw [hnc]
    exact hncprev
  have hsub : (pre ++ post).Sublist (pre ++ c :: post) :=
    List.Sublist.append_left (List.sublist_cons_self c post) pre
  rcases eq_nil_or_append_singleton pre with rfl | ⟨pre₀, b, rfl⟩
  · -- erasing the head node
    have hhd : L.head = some c := h.head_eq
    cases post with
    | nil =>
      -- the single node of the list is removed
      have hpb : L.erase (some c) =
          (⟨hfree L.heap c, none, none, L.size - 1, L.nextId⟩, none) := by
        simp only [erase, hhd, if_true]
        rw [hnextEq]
        rfl
      have hheap : (L.erase (some c)).1.heap = hfree L.heap c := by rw [hpb]
      have hhead : (L.erase (some c)).1.head = none := by rw [hpb]
      have htail : (L.erase (some c)).1.tail = none := by rw [hpb]
      have hsize : (L.erase (some c)).1.size = L.size - 1 := by rw [hpb]
      have hret : (L.erase (some c)).2 = none := by rw [hpb]
      refine ⟨⟨trivial, hhead, htail, ?_, ?_, List.nodup_nil, ?_⟩, hret, ?_⟩
      · rw [hsize, h.size_eq]
        simp
      · intro k
        rw [hheap]
        have := dom_remove (c := c) (g := hfree L.heap c) h.dom (hfree_self ..)
          (fun k hk => by rw [hfree_ne _ hk]) k
        rw [this]
        by_cases hkc : k = c
        · subst hkc
          simp
        · simp [hkc]
      · intro k hk
        cases hk
      · intro k hk
        rw [hheap]
        exact dataAt_hfree_ne _ hk
    | cons hd post₀ =>
      have hdpost₀ : hd ∉ post₀ := (List.nodup_cons.mp hndpost).1
      have hnext2 : (L.heap c).bind DNode.next = some hd := hnextEq
      have hpb : L.erase (some c) =
          (⟨hfree (setPrevAt L.heap hd none) c, some hd, L.tail, L.size - 1, L.nextId⟩,
            some hd) := by
        simp only [erase, hhd, if_true]
        rw [hnext2]
      have hheap : (L.erase (some c)).1.heap = hfree (setPrevAt L.heap hd none) c := by
        rw [hpb]
      have hhead : (L.erase (some c)).1.head = some hd := by rw [hpb]
      have htail : (L.erase (some c)).1.tail = L.tail := by rw [hpb]
      have hsize : (L.erase (some c)).1.size = L.size - 1 := by rw [hpb]
      have hret : (L.erase (some c)).2 = some hd := by rw [hpb]
      have hch1 : chainSegP (setPrevAt L.heap hd none) none (hd :: post₀) none :=
        chainSeg_set_first_prev _ hdpost₀ hpost
      have hch2 : chainSegP (hfree (setPrevAt L.heap hd none) c) none (hd :: post₀) none :=
        chainSeg_congr (fun i hi => hfree_ne _ (fun he => hcpost (he ▸ hi))) hch1
      refine ⟨⟨?_, ?_, ?_, ?_, ?_, ?_, ?_⟩, hret, ?_⟩
      · rw [hheap]
        exact hch2
      · rw [hhead]
        rfl
      · rw [htail, h.tail_eq]
        simp only [List.nil_append]
        rw [lastLink_cons, lastLink_cons, lastLink_cons]
      · rw [hsize, h.size_eq]
        simp
      · intro k
        rw [hheap]
        have := dom_remove (c := c) (g := hfree (setPrevAt L.heap hd none) c) h.dom
          (hfree_self ..)
          (fun k hk => by
            rw [hfree_ne _ hk]
            by_cases hkhd : k = hd
            · obtain ⟨nd, hnd2⟩ := Option.isSome_iff_exists.mp
                (chainSeg_mem_isSome hpost hd (by simp))
              subst hkhd
              rw [setPrevAt_self _ hnd2, hnd2]
              simp
            · rw [setPrevAt_ne _ hkhd]) k
        rw [this]
        by_cases hkc : k = c
        · subst hkc
          simp [hcpost]
        · simp [hkc]
      · exact hndpost
      · intro k hk
        have hnid2 : (L.erase (some c)).1.nextId = L.nextId := by rw [hpb]
        rw [hnid2]
        exact h.fresh k (hsub.subset hk)
      · intro k hk
        rw [hheap, dataAt_hfree_ne _ hk, dataAt_setPrevAt]
  · -- the erased node is not the head
    have hne : pre₀ ++ [b] ≠ [] := by simp
    have hbmem : b ∈ pre₀ ++ [b] := by simp
    obtain ⟨nb, hnb⟩ := Option.isSome_iff_exists.mp (chainSeg_mem_isSome hpreC b hbmem)
    have hbc : b ≠ c := fun he => hnd.2.2 hbmem (by rw [he]; simp)
    have hbpre₀ : b ∉ pre₀ := by
      have hnd1 := hnd.1
      rw [List.nodup_append] at hnd1
      intro hmem
      exact hnd1.2.2 hmem (by simp)
    have hbpost : b ∉ c :: post := fun hm => hnd.2.2 hbmem hm
    have hhdne : L.head ≠ some c := by
      have hex : L.head = firstLink (pre₀ ++ [b]) (some c) := by
        rw [h.head_eq, firstLink_append, firstLink_cons]
      intro heq
      cases pre₀ with
      | nil =>
        rw [hex] at heq
        simp only [List.nil_append, firstLink] at heq
        exact hbc (Option.some_inj.mp heq)
      | cons x xs =>
        rw [hex] at heq
        simp only [List.cons_append, firstLink] at heq
        exact hcpre (by rw [Option.some_inj.mp heq] at *; simp)
    have hprev2 : (L.heap c).bind DNode.prev = some b := by
      rw [hprevEq, lastLink_concat]
    cases post with
    | nil =>
      -- erasing the tail node
      have htl : L.tail = some c := by
        rw [h.tail_eq, lastLink_append, lastLink_cons]
        rfl
      have hpb : L.erase (some c) =
          (⟨hfree (setNextAt L.heap b none) c, L.head, some b, L.size - 1, L.nextId⟩,
            (L.heap c).bind DNode.next) := by
        simp only [erase]
        rw [if_neg hhdne, if_pos htl, hprev2]
      have hheap : (L.erase (some c)).1.heap = hfree (setNextAt L.heap b none) c := by
        rw [hpb]
      have hhead : (L.erase (some c)).1.head = L.head := by rw [hpb]
      have htail : (L.erase (some c)).1.tail = some b := by rw [hpb]
      have hsize : (L.erase (some c)).1.size = L.size - 1 := by rw [hpb]
      have hret : (L.erase (some c)).2 = firstLink ([] : List Nat) none := by
        rw [hpb, hnextEq]
      have hch1 : chainSegP (setNextAt L.heap b none) none (pre₀ ++ [b]) none :=
        chainSeg_set_last_next _ hbpre₀ hpreC
      have hch2 : chainSegP (hfree (setNextAt L.heap b none) c) none (pre₀ ++ [b]) none :=
        chainSeg_congr (fun i hi => hfree_ne _ (fun he => hcpre (he ▸ hi))) hch1
      rw [List.append_nil]
      refine ⟨⟨?_, ?_, ?_, ?_, ?_, hnd.1, ?_⟩, hret, ?_⟩
      · rw [hheap]
        exact hch2
      · rw [hhead, h.head_eq, firstLink_append, firstLink_cons]
        exact firstLink_irrel hne _ _
      · rw [htail, lastLink_concat]
      · rw [hsize, h.size_eq]
        simp
      · intro k
        rw [hheap]
        have := dom_remove (c := c) (g := hfree (setNextAt L.heap b none) c) h.dom
          (hfree_self ..)
          (fun k hk => by
            rw [hfree_ne _ hk]
            by_cases hkb : k = b
            · subst hkb
              rw [setNextAt_self _ hnb, hnb]
              simp
            · rw [setNextAt_ne _ hkb]) k
        rw [this]
        by_cases hkc : k = c
        · subst hkc
          simp [hcpre]
        · simp [hkc]
      · intro k hk
        have hnid2 : (L.erase (some c)).1.nextId = L.nextId := by rw [hpb]
        rw [hnid2]
        exact h.fresh k (List.mem_append.mpr (Or.inl hk))
      · intro k hk
        rw [hheap, dataAt_hfree_ne _ hk, dataAt_setNextAt]
    | cons hd post₀ =>
      -- erasing an interior node
      have hdpost₀ : hd ∉ post₀ := (List.nodup_cons.mp hndpost).1
      have hdpre : hd ∉ pre₀ ++ [b] := fun hm => hnd.2.2 hm (by simp)
      have hdb : hd ≠ b := fun he => hdpre (he ▸ hbmem)
      have hdc : hd ≠ c := fun he => hcpost (he ▸ (by simp : hd ∈ hd :: post₀))
      have htlne : L.tail ≠ some c := by
        have hex : L.tail = lastLink post₀ (some hd) := by
          rw [h.tail_eq, lastLink_append, lastLink_cons, lastLink_cons]
        intro heq
        rw [hex] at heq
        rcases lastLink_mem heq with hm | he
        · exact hcpost (List.mem_cons.mpr (Or.inr hm))
        · exact hcpost (by rw [he]; simp)
      have hnext2 : (L.heap c).bind DNode.next = some hd := hnextEq
      have hpb : L.erase (some c) =
          (⟨hfree (setPrevAt (setNextAt L.heap b (some hd)) hd (some b)) c,
              L.head, L.tail, L.size - 1, L.nextId⟩, some hd) := by
        simp only [erase]
        rw [if_neg hhdne, if_neg htlne, hprev2, hnext2]
        rfl
      have hheap : (L.erase (some c)).1.heap =
          hfree (setPrevAt (setNextAt L.heap b (some hd)) hd (some b)) c := by
        rw [hpb]
      have hhead : (L.erase (some c)).1.head = L.head := by rw [hpb]
      have htail : (L.erase (some c)).1.tail = L.tail := by rw [hpb]
      have hsize : (L.erase (some c)).1.size = L.size - 1 := by rw [hpb]
      have hret : (L.erase (some c)).2 = some hd := by rw [hpb]
      have hch1 : chainSegP (setNextAt L.heap b (some hd)) none (pre₀ ++ [b]) (some hd) :=
        chainSeg_set_last_next _ hbpre₀ hpreC
      have hch2 : chainSegP (setNextAt L.heap b (some hd)) (some c) (hd :: post₀) none := by
        refine chainSeg_congr ?_ hpost
        intro i hi
        have hib : i ≠ b := fun he => hbpost (he ▸ List.mem_cons.mpr (Or.inr hi))
        rw [setNextAt_ne _ hib]
      have hch3 : chainSegP (setPrevAt (setNextAt L.heap b (some hd)) hd (some b))
          (some b) (hd :: post₀) none :=
        chainSeg_set_first_prev _ hdpost₀ hch2
      have hch4 : chainSegP (hfree (setPrevAt (setNextAt L.heap b (some hd)) hd (some b)) c)
          (some b) (hd :: post₀) none :=
        chainSeg_congr (fun i hi => hfree_ne _ (fun he => hcpost (he ▸ hi))) hch3
      have hch5 : chainSegP (setPrevAt (setNextAt L.heap b (some hd)) hd (some b))
          none (pre₀ ++ [b]) (some hd) :=
        chainSeg_congr (fun i hi => setPrevAt_ne _ (fun he => hdpre (he ▸ hi))) hch1
      have hch6 : chainSegP (hfree (setPrevAt (setNextAt L.heap b (some hd)) hd (some b)) c)
          none (pre₀ ++ [b]) (some hd) :=
        chainSeg_congr (fun i hi => hfree_ne _ (fun he => hcpre (he ▸ hi))) hch5
      refine ⟨⟨?_, ?_, ?_, ?_, ?_, ?_, ?_⟩, hret, ?_⟩
      · rw [hheap]
        refine chainSeg_append.mpr ⟨hch6, ?_⟩
        rw [lastLink_concat]
        exact hch4
      · rw [hhead, h.head_eq]
        conv_lhs => rw [firstLink_append]
        conv_rhs => rw [firstLink_append]
        exact firstLink_irrel hne _ _
      · rw [htail, h.tail_eq]
        conv_lhs => rw [lastLink_append, lastLink_cons, lastLink_cons]
        conv_rhs => rw [lastLink_append, lastLink_cons]
      · rw [hsize, h.size_eq]
        simp only [List.length_append, List.length_cons]
        omega
      · intro k
        rw [hheap]
        have := dom_remove (c := c)
          (g := hfree (setPrevAt (setNextAt L.heap b (some hd)) hd (some b)) c) h.dom
          (hfree_self ..)
          (fun k hk => by
            rw [hfree_ne _ hk]
            by_cases hkhd : k = hd
            · obtain ⟨nd, hnd2⟩ := Option.isSome_iff_exists.mp
                (chainSeg_mem_isSome hpost hd (by simp))
              have h1hd : setNextAt L.heap b (some hd) hd = some nd := by
                rw [setNextAt_ne _ hdb, hnd2]
              subst hkhd
              rw [setPrevAt_self _ h1hd, hnd2]
              simp
            · by_cases hkb : k = b
              · subst hkb
                rw [setPrevAt_ne _ (Ne.symm hdb), setNextAt_self _ hnb, hnb]
                simp
              · rw [setPrevAt_ne _ hkhd, setNextAt_ne _ hkb]) k
        rw [this]
        by_cases hkc : k = c
        · subst hkc
          constructor
          · rintro ⟨hcc, -⟩
            exact absurd rfl hcc
          · intro hm
            exfalso
            rcases List.mem_append.mp hm with hm | hm
            · exact hcpre hm
            · exact hcpost hm
        · simp [hkc]
      · exact List.Nodup.sublist hsub h.nodup
      · intro k hk
        have hnid2 : (L.erase (some c)).1.nextId = L.nextId := by rw [hpb]
        rw [hnid2]
        exact h.fresh k (hsub.subset hk)
      · intro k hk
        rw [hheap, dataAt_hfree_ne _ hk, dataAt_setPrevAt, dataAt_setNextAt]

theorem pop_back_empty {L : ListS α} (h : L.head = none) : L.pop_back = L := by
  simp only [pop_back, h]

theorem pop_front_empty {L : ListS α} (h : L.head = none) : L.pop_front = L := by
  simp only [pop_front, h]

theorem pop_back_spec {L : ListS α} {init : List Nat} {t : Nat} (h : Rep L (init ++ [t])) :
    Rep L.pop_back init
    ∧ L.pop_back.size = L.size - 1
    ∧ (∀ k, k ≠ t → dataAt L.pop_back.heap k = dataAt L.heap k) := by
  have hne : init ++ [t] ≠ [] := by simp
  have htmem : t ∈ init ++ [t] := by simp
  obtain ⟨nt, hnt⟩ := Option.isSome_iff_exists.mp (chainSeg_mem_isSome h.chain t htmem)
  have htail0 : L.tail = some t := by rw [h.tail_eq, lastLink_concat]
  have hhead0 : ∃ hd, L.head = some hd := by
    cases init with
    | nil => exact ⟨t, h.head_eq⟩
    | cons a l => exact ⟨a, h.head_eq⟩
  obtain ⟨hd, hh⟩ := hhead0
  have hti : t ∉ init := by
    have hnd := h.nodup
    rw [List.nodup_append] at hnd
    intro hmem
    exact hnd.2.2 hmem (by simp)
  have hsplit := chainSeg_append.mp h.chain
  have hpreC : chainSegP L.heap none init (some t) := hsplit.1
  obtain ⟨nt2, hnt2, hntprev, -, -⟩ := hsplit.2
  have hprevEq : (L.heap t).bind DNode.prev = lastLink init none := by
    rw [hnt2]
    exact hntprev
  rcases eq_nil_or_append_singleton init with rfl | ⟨init₀, b, rfl⟩
  · -- the removed node was the only one
    have hpb : L.pop_back = ⟨hfree L.heap t, none, none, L.size - 1, L.nextId⟩ := by
      simp only [pop_back, hh, htail0]
      rw [hprevEq]
      rfl
    have hheap : L.pop_back.heap = hfree L.heap t := by rw [hpb]
    have hhead : L.pop_back.head = none := by rw [hpb]
    have htail : L.pop_back.tail = none := by rw [hpb]
    have hsize : L.pop_back.size = L.size - 1 := by rw [hpb]
    have hnid : L.pop_back.nextId = L.nextId := by rw [hpb]
    refine ⟨⟨trivial, hhead, htail, ?_, ?_, List.nodup_nil, ?_⟩, hsize, ?_⟩
    · rw [hsize, h.size_eq]
      simp
    · intro k
      rw [hheap]
      have := dom_remove (c := t) (g := hfree L.heap t) h.dom (hfree_self ..)
        (fun k hk => by rw [hfree_ne _ hk]) k
      rw [this]
      by_cases hkt : k = t
      · subst hkt
        simp
      · simp [hkt]
    · intro k hk
      cases hk
    · intro k hk
      rw [hheap]
      exact dataAt_hfree_ne _ hk
  · -- the new tail is the predecessor of the removed node
    have hbinit₀ : b ∉ init₀ := by
      have hnd := h.nodup
      rw [List.append_assoc, List.nodup_append] at hnd
      intro hmem
      exact hnd.2.2 hmem (by simp)
    have hprev2 : (L.heap t).bind DNode.prev = some b := by
      rw [hprevEq, lastLink_concat]
    have hpb : L.pop_back =
        ⟨hfree (setNextAt L.heap b none) t, L.head, some b, L.size - 1, L.nextId⟩ := by
      simp only [pop_back, hh, htail0]
      rw [hprev2]
    have hheap : L.pop_back.heap = hfree (setNextAt L.heap b none) t := by rw [hpb]
    have hhead : L.pop_back.head = L.head := by rw [hpb]
    have htail : L.pop_back.tail = some b := by rw [hpb]
    have hsize : L.pop_back.size = L.size - 1 := by rw [hpb]
    have hnid : L.pop_back.nextId = L.nextId := by rw [hpb]
    have hbmem : b ∈ init₀ ++ [b] := by simp
    obtain ⟨nb, hnb⟩ := Option.isSome_iff_exists.mp (chainSeg_mem_isSome hpreC b hbmem)
    have hch1 : chainSegP (setNextAt L.heap b none) none (init₀ ++ [b]) none :=
      chainSeg_set_last_next _ hbinit₀ hpreC
    have hch2 : chainSegP (hfree (setNextAt L.heap b none) t) none (init₀ ++ [b]) none :=
      chainSeg_congr (fun i hi => hfree_ne _ (fun he => hti (he ▸ hi))) hch1
    refine ⟨⟨?_, ?_, ?_, ?_, ?_, ?_, ?_⟩, hsize, ?_⟩
    · rw [hheap]
      exact hch2
    · rw [hhead, h.head_eq]
      conv_lhs => rw [firstLink_append]
      exact firstLink_irrel (by simp) _ _
    · rw [htail, lastLink_concat]
    · rw [hsize, h.size_eq]
      simp
    · intro k
      rw [hheap]
      have := dom_remove (c := t) (g := hfree (setNextAt L.heap b none) t) h.dom
        (hfree_self ..)
        (fun k hk => by
          rw [hfree_ne _ hk]
          by_cases hkb : k = b
          · subst hkb
            rw [setNextAt_self _ hnb, hnb]
            simp
          · rw [setNextAt_ne _ hkb]) k
      rw [this]
      by_cases hkt : k = t
      · subst hkt
        simp [hti]
      · simp [hkt]
    · have hnd := h.nodup
      rw [List.nodup_append] at hnd
      exact hnd.1
    · intro k hk
      rw [hnid]
      exact h.fresh k (List.mem_append.mpr (Or.inl hk))
    · intro k hk
      rw [hheap, dataAt_hfree_ne _ hk, dataAt_setNextAt]

theorem pop_front_spec {L : ListS α} {c : Nat} {rest : List Nat} (h : Rep L (c :: rest)) :
    Rep L.pop_front rest
    ∧ L.pop_front.size = L.size - 1
    ∧ (∀ k, k ≠ c → dataAt L.pop_front.heap k = dataAt L.heap k) := by
  have hh : L.head = some c := h.head_eq
  obtain ⟨nc, hnc, -, hncnext, hpost⟩ := h.chain
  have hnextEq : (L.heap c).bind DNode.next = firstLink rest none := by
    rw [hnc]
    exact hncnext
  have hcrest : c ∉ rest := (List.nodup_cons.mp h.nodup).1
  have hndrest : rest.Nodup := (List.nodup_cons.mp h.nodup).2
  cases rest with
  | nil =>
    have hpb : L.pop_front = ⟨hfree L.heap c, none, none, L.size - 1, L.nextId⟩ := by
      simp only [pop_front, hh]
      rw [hnextEq]
      rfl
    have hheap : L.pop_front.heap = hfree L.heap c := by rw [hpb]
    have hhead : L.pop_front.head = none := by rw [hpb]
    have htail : L.pop_front.tail = none := by rw [hpb]
    have hsize : L.pop_front.size = L.size - 1 := by rw [hpb]
    refine ⟨⟨trivial, hhead, htail, ?_, ?_, List.nodup_nil, ?_⟩, hsize, ?_⟩
    · rw [hsize, h.size_eq]
      simp
    · intro k
      rw [hheap]
      have := dom_remove (c := c) (g := hfree L.heap c) h.dom (hfree_self ..)
        (fun k hk => by rw [hfree_ne _ hk]) k
      rw [this]
      by_cases hkc : k = c
      · subst hkc
        simp
      · simp [hkc]
    · intro k hk
      cases hk
    · intro k hk
      rw [hheap]
      exact dataAt_hfree_ne _ hk
  | cons nh rest₀ =>
    have hnh : nh ∉ rest₀ := (List.nodup_cons.mp hndrest).1
    have hnext2 : (L.heap c).bind DNode.next = some nh := hnextEq
    have hpb : L.pop_front =
        ⟨hfree (setPrevAt L.heap nh none) c, some nh, L.tail, L.size - 1, L.nextId⟩ := by
      simp only [pop_front, hh]
      rw [hnext2]
    have hheap : L.pop_front.heap = hfree (setPrevAt L.heap nh none) c := by rw [hpb]
    have hhead : L.pop_front.head = some nh := by rw [hpb]
    have htail : L.pop_front.tail = L.tail := by rw [hpb]
    have hsize : L.pop_front.size = L.size - 1 := by rw [hpb]
    have hnid : L.pop_front.nextId = L.nextId := by rw [hpb]
    have hch1 : chainSegP (setPrevAt L.heap nh none) none (nh :: rest₀) none :=
      chainSeg_set_first_prev _ hnh hpost
    have hch2 : chainSegP (hfree (setPrevAt L.heap nh none) c) none (nh :: rest₀) none :=
      chainSeg_congr (fun i hi => hfree_ne _ (fun he => hcrest (he ▸ hi))) hch1
    refine ⟨⟨?_, ?_, ?_, ?_, ?_, hndrest, ?_⟩, hsize, ?_⟩
    · rw [hheap]
      exact hch2
    · rw [hhead]
      rfl
    · rw [htail, h.tail_eq]
      rw [lastLink_cons, lastLink_cons, lastLink_cons]
    · rw [hsize, h.size_eq]
      simp
    · intro k
      rw [hheap]
      have := dom_remove (c := c) (g := hfree (setPrevAt L.heap nh none) c) h.dom
        (hfree_self ..)
        (fun k hk => by
          rw [hfree_ne _ hk]
          by_cases hknh : k = nh
          · obtain ⟨nd, hnd2⟩ := Option.isSome_iff_exists.mp
              (chainSeg_mem_isSome hpost nh (by simp))
            subst hknh
            rw [setPrevAt_self _ hnd2, hnd2]
            simp
          · rw [setPrevAt_ne _ hknh]) k
      rw [this]
      by_cases hkc : k = c
      · subst hkc
        simp [hcrest]
      · simp [hkc]
    · intro k hk
      rw [hnid]
      exact h.fresh k (by simp [hk])
    · intro k hk
      rw [hheap, dataAt_hfree_ne _ hk, dataAt_setPrevAt]

theorem clearLoop_spec {h : DHeap α} {ids : List Nat} {pr : Option Nat}
    (hch : chainSegP h pr ids none) (hnd : ids.Nodup) :
    ∀ {fuel : Nat}, ids.length ≤ fuel →
      ∀ k, clearLoop h fuel (firstLink ids none) k = if k ∈ ids then none else h k := by
  induction ids generalizing h pr with
  | nil =>
    intro fuel _ k
    cases fuel <;> simp [clearLoop]
  | cons i rest ih =>
    intro fuel hf k
    obtain ⟨n, hn, -, hx, hrest⟩ := hch
    cases fuel with
    | zero => simp at hf
    | succ f =>
      have hirest : i ∉ rest := (List.nodup_cons.mp hnd).1
      have hrest2 : chainSegP (hfree h i) (some i) rest none :=
        chainSeg_congr (fun j hj => hfree_ne _ (fun he => hirest (he ▸ hj))) hrest
      have hstep : clearLoop h (f + 1) (some i) = clearLoop (hfree h i) f n.next := by
        simp only [clearLoop, hn]
      rw [firstLink_cons, hstep, hx]
      rw [ih hrest2 ((List.nodup_cons.mp hnd).2) (Nat.le_of_succ_le_succ hf) k]
      by_cases hkr : k ∈ rest
      · simp [hkr]
      · by_cases hki : k = i
        · subst hki
          simp [hkr, hfree_self]
        · simp [hkr, hki, hfree_ne _ hki]

theorem clear_spec {L : ListS α} {ids : List Nat} (h : Rep L ids) :
    Rep L.clear [] ∧ ∀ k, L.clear.heap k = none := by
  have hall : ∀ k, L.clear.heap k = none := by
    intro k
    show clearLoop L.heap (L.size + 1) L.head k = none
    rw [h.head_eq, clearLoop_spec h.chain h.nodup (by rw [h.size_eq]; omega) k]
    by_cases hk : k ∈ ids
    · simp [hk]
    · simp only [hk, if_false]
      rcases hh : L.heap k with _ | n
      · rfl
      · exact absurd ((h.dom k).mp (by simp [hh])) hk
  refine ⟨⟨trivial, rfl, rfl, rfl, ?_, List.nodup_nil, ?_⟩, hall⟩
  · intro k
    rw [hall k]
    simp
  · intro k hk
    cases hk

theorem dmap_congr_data {h₁ h₂ : DHeap α} {ids : List Nat}
    (hag : ∀ i ∈ ids, dataAt h₂ i = dataAt h₁ i) : dmap h₂ ids = dmap h₁ ids := by
  induction ids with
  | nil => rfl
  | cons i l ih =>
    simp only [dmap, List.filterMap_cons] at *
    rw [hag i (by simp), ih (fun j hj => hag j (by simp [hj]))]

theorem models_toList {L : ListS α} {xs : List α} (h : Models L xs) :
    toList L = xs ∧ toListRev L = xs.reverse := by
  obtain ⟨ids, hrep, hdm⟩ := h
  exact ⟨by rw [hrep.toList_eq, hdm], by rw [hrep.toListRev_eq, hdm]⟩

theorem models_emptyList : Models (emptyList : ListS α) [] :=
  ⟨[], rep_emptyList, rfl⟩

theorem rep_emptyAt (n : Nat) :
    Rep (⟨fun _ => none, none, none, 0, n⟩ : ListS α) [] := by
  refine ⟨trivial, rfl, rfl, rfl, ?_, List.nodup_nil, ?_⟩
  · intro k
    simp
  · intro k hk
    cases hk

theorem models_push_back {L : ListS α} {xs : List α} (v : α) (h : Models L xs) :
    Models (L.push_back v) (xs ++ [v]) := by
  obtain ⟨ids, hrep, rfl⟩ := h
  obtain ⟨hrep2, hfr, hnew, -⟩ := push_back_spec v hrep
  refine ⟨ids ++ [L.nextId], hrep2, ?_⟩
  rw [dmap_append,
    dmap_congr_data (fun i hi => hfr i (fun he => hrep.nextId_not_mem (he ▸ hi)))]
  congr 1
  simp [dmap, List.filterMap_cons, hnew]

theorem models_push_front {L : ListS α} {xs : List α} (v : α) (h : Models L xs) :
    Models (L.push_front v) (v :: xs) := by
  obtain ⟨ids, hrep, rfl⟩ := h
  obtain ⟨hrep2, hfr, hnew, -⟩ := push_front_spec v hrep
  refine ⟨L.nextId :: ids, hrep2, ?_⟩
  have h1 : dmap (L.push_front v).heap (L.nextId :: ids) =
      v :: dmap (L.push_front v).heap ids := by
    simp [dmap, List.filterMap_cons, hnew]
  rw [h1,
    dmap_congr_data (fun i hi => hfr i (fun he => hrep.nextId_not_mem (he ▸ hi)))]

theorem models_emplace_back {L : ListS α} {xs : List α} (v : α) (h : Models L xs) :
    Models (L.emplace_back v) (xs ++ [v]) := by
  obtain ⟨ids, hrep, hdm⟩ := h
  rw [emplace_back_eq v hrep]
  exact models_push_back v ⟨ids, hrep, hdm⟩

theorem models_emplace_front {L : ListS α} {xs : List α} (v : α) (h : Models L xs) :
    Models (L.emplace_front v) (v :: xs) := by
  rw [emplace_front_eq]
  exact models_push_front v h

theorem models_pushBackAll (vs : List α) :
    ∀ {L : ListS α} {xs : List α}, Models L xs → Models (L.pushBackAll vs) (xs ++ vs) := by
  induction vs with
  | nil =>
    intro L xs h
    simpa using h
  | cons v rest ih =>
    intro L xs h
    have h2 := ih (models_push_back v h)
    rw [show xs ++ v :: rest = (xs ++ [v]) ++ rest from by simp]
    exact h2

theorem validPos_split {L : ListS α} {ids : List Nat} {pos : Option Nat}
    (h : Rep L ids) (hv : ValidPos L pos) :
    ∃ pre post, ids = pre ++ post ∧ pos = firstLink post none := by
  rcases hv with rfl | ⟨c, rfl, hc⟩
  · exact ⟨ids, [], by simp, rfl⟩
  · have hcm : c ∈ ids := (h.dom c).mp hc
    obtain ⟨s, t, rfl⟩ := List.append_of_mem hcm
    exact ⟨s, c :: t, rfl, rfl⟩

theorem validPos_of_split {L : ListS α} {pre post : List Nat} (h : Rep L (pre ++ post)) :
    ValidPos L (firstLink post none) := by
  cases post with
  | nil => exact Or.inl rfl
  | cons hd post₀ => exact Or.inr ⟨hd, rfl, (h.dom hd).mpr (by simp)⟩

theorem models_append_range (rg : List α) :
    ∀ {L : ListS α} {xs : List α}, Models L xs → Models (L.append_range rg) (xs ++ rg) := by
  induction rg with
  | nil =>
    intro L xs h
    simpa using h
  | cons v rest ih =>
    intro L xs h
    have h2 := ih (models_emplace_back v h)
    rw [show xs ++ v :: rest = (xs ++ [v]) ++ rest from by simp]
    exact h2

theorem models_foldl_emplace_front (ws : List α) :
    ∀ {L : ListS α} {xs : List α}, Models L xs →
      Models (ws.foldl emplace_front L) (ws.reverse ++ xs) := by
  induction ws with
  | nil =>
    intro L xs h
    simpa using h
  | cons w rest ih =>
    intro L xs h
    have h2 := ih (models_emplace_front w h)
    rw [show (w :: rest).reverse ++ xs = rest.reverse ++ (w :: xs) from by simp]
    exact h2

theorem models_prepend_range (rg : List α) {L : ListS α} {xs : List α} (h : Models L xs) :
    Models (L.prepend_range rg) (rg ++ xs) := by
  have h2 := models_foldl_emplace_front rg.reverse h
  rw [List.reverse_reverse] at h2
  exact h2

theorem insertCountAux_spec (v : α) (n : Nat) :
    ∀ {L : ListS α} {pre post : List Nat}, Rep L (pre ++ post) →
    ∃ newIds : List Nat,
      newIds.length = n
      ∧ (∀ i ∈ newIds, L.nextId ≤ i)
      ∧ Rep (insertCountAux L (firstLink post none) v n).1 (pre ++ (newIds ++ post))
      ∧ (insertCountAux L (firstLink post none) v n).2 = firstLink (newIds ++ post) none
      ∧ (∀ i ∈ newIds, dataAt (insertCountAux L (firstLink post none) v n).1.heap i = some v)
      ∧ (∀ k, k ∉ newIds →
          dataAt (insertCountAux L (firstLink post none) v n).1.heap k = dataAt L.heap k) := by
  induction n with
  | zero =>
    intro L pre post h
    exact ⟨[], rfl, by simp, h, rfl, by simp, fun k _ => rfl⟩
  | succ n ih =>
    intro L pre post h
    obtain ⟨hrep1, hret1, hfr1, hnew1, hnid1⟩ := insert_spec v h
    have hstep : insertCountAux L (firstLink post none) v (n + 1) =
        insertCountAux (L.insert (firstLink post none) v).1
          (some (L.insert (firstLink post none) v).2) v n := rfl
    rw [hstep, hret1]
    obtain ⟨newIds, hlen, hge, hrep2, hret2, hdata2, hfr2⟩ :=
      @ih _ pre (L.nextId :: post) hrep1
    have hpge : ∀ i ∈ newIds, L.nextId + 1 ≤ i := by
      intro i hi
      have := hge i hi
      rw [hnid1] at this
      exact this
    have hpnot : L.nextId ∉ newIds := fun hm => by
      have := hpge _ hm
      omega
    have hlist : pre ++ ((newIds ++ [L.nextId]) ++ post) =
        pre ++ (newIds ++ (L.nextId :: post)) := by
      simp
    refine ⟨newIds ++ [L.nextId], by simp [hlen], ?_, ?_, ?_, ?_, ?_⟩
    · intro i hi
      rcases List.mem_append.mp hi with hi | hi
      · have := hpge i hi
        omega
      · simp at hi
        omega
    · rw [hlist]
      exact hrep2
    · rw [show (newIds ++ [L.nextId]) ++ post = newIds ++ (L.nextId :: post) from by simp]
      exact hret2
    · intro i hi
      rcases List.mem_append.mp hi with hi | hi
      · exact hdata2 i hi
      · simp at hi
        subst hi
        exact (hfr2 _ hpnot).trans hnew1
    · intro k hk
      have hk1 : k ∉ newIds := fun hm => hk (List.mem_append.mpr (Or.inl hm))
      have hk2 : k ≠ L.nextId := fun he => hk (List.mem_append.mpr (Or.inr (by simp [he])))
      exact (hfr2 _ hk1).trans (hfr1 _ hk2)

theorem insertRange_wf (vs : List α) :
    ∀ {L : ListS α} {pre post : List Nat}, Rep L (pre ++ post) →
      ∃ ids, Rep (L.insertRange (firstLink post none) vs).1 ids := by
  induction vs with
  | nil =>
    intro L pre post h
    exact ⟨pre ++ post, h⟩
  | cons v rest ih =>
    intro L pre post h
    obtain ⟨hrep1, hret1, -, -, -⟩ := insert_spec v h
    have hstep : L.insertRange (firstLink post none) (v :: rest) =
        insertRange (L.insert (firstLink post none) v).1
          (some (L.insert (firstLink post none) v).2) rest := rfl
    rw [hstep, hret1]
    exact @ih _ pre (L.nextId :: post) hrep1

theorem eraseRangeAux_wf (last : Option Nat) :
    ∀ (fuel : Nat) (L : ListS α) (ids : List Nat) (first : Option Nat),
      Rep L ids → ValidPos L first →
      ∃ ids2, Rep (eraseRangeAux L first last fuel).1 ids2 := by
  intro fuel
  induction fuel with
  | zero =>
    intro L ids first h _
    exact ⟨ids, h⟩
  | succ f ih =>
    intro L ids first h hv
    by_cases he : first = last
    · have hstep : eraseRangeAux L first last (f + 1) = (L, last) := by
        simp [eraseRangeAux, he]
      rw [hstep]
      exact ⟨ids, h⟩
    · have hstep : eraseRangeAux L first last (f + 1) =
          eraseRangeAux (L.erase first).1 (L.erase first).2 last f := by
        simp [eraseRangeAux, he]
      rw [hstep]
      rcases hv with rfl | ⟨c, rfl, hc⟩
      · rw [erase_none_eq]
        exact ih L ids none h (Or.inl rfl)
      · have hcm : c ∈ ids := (h.dom c).mp hc
        obtain ⟨s, t, rfl⟩ := List.append_of_mem hcm
        obtain ⟨hrep2, hret2, -⟩ := erase_spec (c := c) h
        rw [hret2]
        exact ih _ _ _ hrep2 (validPos_of_split hrep2)

theorem copyLoop_wf (h : DHeap α) :
    ∀ (fuel : Nat) (cur : Option Nat) (L : ListS α) (ids : List Nat), Rep L ids →
      ∃ ids2, Rep (copyLoop L h fuel cur) ids2 := by
  intro fuel
  induction fuel with
  | zero =>
    intro cur L ids hrep
    exact ⟨ids, hrep⟩
  | succ f ih =>
    intro cur L ids hrep
    cases cur with
    | none => exact ⟨ids, hrep⟩
    | some i =>
      cases hn : h i with
      | none =>
        have hstep : copyLoop L h (f + 1) (some i) = L := by
          simp [copyLoop, hn]
        rw [hstep]
        exact ⟨ids, hrep⟩
      | some n =>
        have hstep : copyLoop L h (f + 1) (some i) =
            copyLoop (L.push_back n.data) h f n.next := by
          simp [copyLoop, hn]
        rw [hstep]
        exact ih n.next _ _ (push_back_spec n.data hrep).1

theorem pushBackN_wf (v : α) :
    ∀ (n : Nat) (L : ListS α) (ids : List Nat), Rep L ids →
      ∃ ids2, Rep (L.pushBackN v n) ids2 := by
  intro n
  induction n with
  | zero =>
    intro L ids hrep
    exact ⟨ids, hrep⟩
  | succ m ih =>
    intro L ids hrep
    exact ih _ _ (push_back_spec v hrep).1

theorem shrinkTo_wf (count : Nat) :
    ∀ (fuel : Nat) (L : ListS α) (ids : List Nat), Rep L ids →
      ∃ ids2, Rep (L.shrinkTo count fuel) ids2 := by
  intro fuel
  induction fuel with
  | zero =>
    intro L ids hrep
    exact ⟨ids, hrep⟩
  | succ f ih =>
    intro L ids hrep
    by_cases hc : count < L.size
    · have hstep : L.shrinkTo count (f + 1) = L.pop_back.shrinkTo count f := by
        simp [shrinkTo, hc]
      rw [hstep]
      rcases eq_nil_or_append_singleton ids with rfl | ⟨init, t, rfl⟩
      · rw [pop_back_empty hrep.head_eq]
        exact ih _ _ hrep
      · exact ih _ _ (pop_back_spec hrep).1
    · have hstep : L.shrinkTo count (f + 1) = L := by
        simp [shrinkTo, hc]
      rw [hstep]
      exact ⟨ids, hrep⟩

theorem growTo_wf (count : Nat) (v : α) :
    ∀ (fuel : Nat) (L : ListS α) (ids : List Nat), Rep L ids →
      ∃ ids2, Rep (L.growTo count v fuel) ids2 := by
  intro fuel
  induction fuel with
  | zero =>
    intro L ids hrep
    exact ⟨ids, hrep⟩
  | succ f ih =>
    intro L ids hrep
    by_cases hc : L.size < count
    · have hstep : L.growTo count v (f + 1) = (L.emplace_back v).growTo count v f := by
        simp [growTo, hc]
      rw [hstep, emplace_back_eq v hrep]
      exact ih _ _ (push_back_spec v hrep).1
    · have hstep : L.growTo count v (f + 1) = L := by
        simp [growTo, hc]
      rw [hstep]
      exact ⟨ids, hrep⟩

theorem resize_wf {L : ListS α} {ids : List Nat} (count : Nat) (v : α) (h : Rep L ids) :
    ∃ ids2, Rep (L.resize count v) ids2 := by
  unfold resize
  by_cases h1 : count < L.size
  · rw [if_pos h1]
    exact shrinkTo_wf count L.size L ids h
  · rw [if_neg h1]
    by_cases h2 : L.size < count
    · rw [if_pos h2]
      exact growTo_wf count v count L ids h
    · rw [if_neg h2]
      exact ⟨ids, h⟩

theorem reaches_wf {L : ListS α} (h : Reaches L) : Wf L := by
  induction h with
  | emptyList => exact ⟨[], rep_emptyList⟩
  | push_back v _ ih =>
    obtain ⟨ids, hr⟩ := ih
    exact ⟨_, (push_back_spec v hr).1⟩
  | push_front v _ ih =>
    obtain ⟨ids, hr⟩ := ih
    exact ⟨_, (push_front_spec v hr).1⟩
  | emplace_back v _ ih =>
    obtain ⟨ids, hr⟩ := ih
    rw [emplace_back_eq v hr]
    exact ⟨_, (push_back_spec v hr).1⟩
  | emplace_front v _ ih =>
    obtain ⟨ids, hr⟩ := ih
    rw [emplace_front_eq]
    exact ⟨_, (push_front_spec v hr).1⟩
  | insert pos v _ hv ih =>
    obtain ⟨ids, hr⟩ := ih
    obtain ⟨pre, post, rfl, rfl⟩ := validPos_split hr hv
    exact ⟨_, (insert_spec v hr).1⟩
  | emplace pos v _ hv ih =>
    obtain ⟨ids, hr⟩ := ih
    obtain ⟨pre, post, rfl, rfl⟩ := validPos_split hr hv
    exact ⟨_, (insert_spec v hr).1⟩
  | insertCount pos n v _ hv ih =>
    obtain ⟨ids, hr⟩ := ih
    obtain ⟨pre, post, rfl, rfl⟩ := validPos_split hr hv
    obtain ⟨newIds, -, -, hrep, -, -, -⟩ := insertCountAux_spec v n hr
    exact ⟨_, hrep⟩
  | insertRange pos vs _ hv ih =>
    obtain ⟨ids, hr⟩ := ih
    obtain ⟨pre, post, rfl, rfl⟩ := validPos_split hr hv
    exact insertRange_wf vs hr
  | erase pos _ hv ih =>
    obtain ⟨ids, hr⟩ := ih
    rcases hv with rfl | ⟨c, rfl, hc⟩
    · rw [erase_none_eq]
      exact ⟨ids, hr⟩
    · have hcm : c ∈ ids := (hr.dom c).mp hc
      obtain ⟨s, t, rfl⟩ := List.append_of_mem hcm
      exact ⟨_, (erase_spec (c := c) hr).1⟩
  | eraseRange first last _ hv ih =>
    obtain ⟨ids, hr⟩ := ih
    exact eraseRangeAux_wf last (_ + 1) _ ids first hr hv
  | pop_back _ ih =>
    obtain ⟨ids, hr⟩ := ih
    rcases eq_nil_or_append_singleton ids with rfl | ⟨init, t, rfl⟩
    · rw [pop_back_empty hr.head_eq]
      exact ⟨_, hr⟩
    · exact ⟨_, (pop_back_spec hr).1⟩
  | pop_front _ ih =>
    obtain ⟨ids, hr⟩ := ih
    cases ids with
    | nil =>
      rw [pop_front_empty hr.head_eq]
      exact ⟨_, hr⟩
    | cons c rest => exact ⟨_, (pop_front_spec hr).1⟩
  | resize count v _ ih =>
    obtain ⟨ids, hr⟩ := ih
    exact resize_wf count v hr
  | clear _ ih =>
    obtain ⟨ids, hr⟩ := ih
    exact ⟨[], (clear_spec hr).1⟩
  | swapFst _ _ ihL ihM =>
    obtain ⟨ids, hr⟩ := ihM
    exact ⟨ids, hr⟩
  | swapSnd _ _ ihL ihM =>
    obtain ⟨ids, hr⟩ := ihL
    exact ⟨ids, hr⟩
  | swapSelf _ ih =>
    obtain ⟨ids, hr⟩ := ih
    exact ⟨ids, hr⟩
  | moveAssignFst _ _ ihL ihM =>
    obtain ⟨ids, hr⟩ := ihM
    exact ⟨ids, hr⟩
  | moveAssignSnd _ _ ihL ihM =>
    exact ⟨[], rep_emptyAt _⟩
  | moveAssignSelf _ ih =>
    obtain ⟨ids, hr⟩ := ih
    exact ⟨ids, hr⟩
  | copyAssign _ _ ihA ihM =>
    obtain ⟨idsA, hrA⟩ := ihA
    exact copyLoop_wf _ _ _ _ [] (clear_spec hrA).1
  | assignCount count v _ ih =>
    obtain ⟨ids, hr⟩ := ih
    exact pushBackN_wf v count _ [] (clear_spec hr).1
  | assignList vs _ ih =>
    obtain ⟨ids, hr⟩ := ih
    obtain ⟨ids2, hrep2, -⟩ := models_pushBackAll vs ⟨[], (clear_spec hr).1, rfl⟩
    exact ⟨ids2, hrep2⟩

theorem rep_toList_length {L : ListS α} {ids : List Nat} (h : Rep L ids) :
    (toList L).length = L.size := by
  rw [h.toList_eq, dmap_length_chain h.chain, h.size_eq]

theorem rep_head_iff_tail {L : ListS α} {ids : List Nat} (h : Rep L ids) :
    L.head = none ↔ L.tail = none := by
  rw [h.head_eq, h.tail_eq, firstLink_eq_none, lastLink_eq_none]

theorem rep_mutualInv {L : ListS α} {ids : List Nat} (h : Rep L ids) :
    MutualInv L.heap := by
  constructor
  · intro i ni j nj hi hnext hj
    have him : i ∈ ids := (h.dom i).mp (by simp [hi])
    obtain ⟨l1, l2, rfl⟩ := List.append_of_mem him
    have hsp := chainSeg_append.mp h.chain
    obtain ⟨n, hn, hprev, hnx, hrest⟩ := hsp.2
    have hni : ni = n := by
      rw [hi] at hn
      exact Option.some_inj.mp hn
    subst hni
    cases l2 with
    | nil =>
      rw [hnext] at hnx
      cases hnx
    | cons x l2x =>
      have hxj : x = j := by
        rw [hnext] at hnx
        exact Option.some_inj.mp hnx.symm
      subst hxj
      obtain ⟨m, hm, hmprev, -, -⟩ := hrest
      have hmj : nj = m := by
        rw [hj] at hm
        exact Option.some_inj.mp hm
      subst hmj
      exact hmprev
  · intro i ni j nj hi hprev hj
    have him : i ∈ ids := (h.dom i).mp (by simp [hi])
    obtain ⟨l1, l2, rfl⟩ := List.append_of_mem him
    have hsp := chainSeg_append.mp h.chain
    obtain ⟨n, hn, hprev2, hnx, hrest⟩ := hsp.2
    have hni : ni = n := by
      rw [hi] at hn
      exact Option.some_inj.mp hn
    subst hni
    rcases eq_nil_or_append_singleton l1 with rfl | ⟨l1x, b, rfl⟩
    · rw [hprev] at hprev2
      cases hprev2.symm
    · have hbj : b = j := by
        rw [hprev, lastLink_concat] at hprev2
        exact (Option.some_inj.mp hprev2).symm
      subst hbj
      have hsp1 := chainSeg_append.mp hsp.1
      obtain ⟨m, hm, -, hmnx, -⟩ := hsp1.2
      have hmj : nj = m := by
        rw [hj] at hm
        exact Option.some_inj.mp hm
      subst hmj
      exact hmnx
  
theorem rep_boundary {L : ListS α} {ids : List Nat} (h : Rep L ids) :
    Boundary L := by
  constructor
  · intro hd n hh hn
    rw [h.head_eq] at hh
    cases ids with
    | nil => cases hh
    | cons a rest =>
      have ha : a = hd := by
        rw [firstLink_cons] at hh
        exact Option.some_inj.mp hh
      subst ha
      obtain ⟨m, hm, hmprev, -, -⟩ := h.chain
      have : n = m := by
        rw [hn] at hm
        exact Option.some_inj.mp hm
      subst this
      exact hmprev
  · intro t n ht hn
    rw [h.tail_eq] at ht
    rcases eq_nil_or_append_singleton ids with rfl | ⟨init, b, rfl⟩
    · cases ht
    · have hb : b = t := by
        rw [lastLink_concat] at ht
        exact Option.some_inj.mp ht
      subst hb
      have hsp := chainSeg_append.mp h.chain
      obtain ⟨m, hm, -, hmnx, -⟩ := hsp.2
      have : n = m := by
        rw [hn] at hm
        exact Option.some_inj.mp hm
      subst this
      exact hmnx

theorem rep_sample2 : Rep sample2 [0, 1] :=
  (push_back_spec 20 (push_back_spec 10 rep_emptyList).1).1

theorem models_sample2 : Models sample2 [10, 20] :=
  ⟨[0, 1], rep_sample2, rfl⟩

theorem validPos_sample2 : ValidPos sample2 (some 0) :=
  Or.inr ⟨0, rfl, by decide⟩

theorem reaches_sample2 : Reaches sample2 :=
  Reaches.push_back 20 (Reaches.push_back 10 Reaches.emptyList)

end ListS

open ListS in
/-- C1: the claim says the range insert places the source elements before pos
in source order.  The loop of the source reassigns the insertion position to
each returned iterator, so every element is inserted before the previously
inserted one and the range comes out reversed: inserting [1, 2] at the end
sentinel of an empty list yields [2, 1], and inserting [1, 2] before the head
of the list [10, 20] yields [2, 1, 10, 20]. -/
theorem c1_range_insert_reverses_order :
    toList ((insertRange (emptyList : ListS Int) none [1, 2]).1) = [2, 1]
    ∧ toList ((insertRange sample2 (some 0) [1, 2]).1) = [2, 1, 10, 20] := by
  exact ⟨rfl, rfl⟩

open ListS in
/-- C2: for every well formed list, every valid insertion position and every
count n of at least one, the count insert returns an iterator to the first of
the n newly inserted nodes, that is the new node that appears earliest in
forward traversal: the resulting chain splits as pre, new block, post with the
returned iterator at the head of the new block, and every new node carries the
inserted value. -/
theorem c2_count_insert_returns_first {α : Type} {L : ListS α} {ids : List Nat}
    {pos : Option Nat} (n : Nat) (v : α) (hrep : Rep L ids) (hpos : ValidPos L pos)
    (hn : 0 < n) :
    ∃ pre post newIds : List Nat,
      ids = pre ++ post
      ∧ newIds.length = n
      ∧ (∀ i ∈ newIds, i ∉ ids)
      ∧ Rep (L.insertCount pos n v).1 (pre ++ newIds ++ post)
      ∧ (L.insertCount pos n v).2 = newIds.head?
      ∧ (∀ i ∈ newIds, dataAt (L.insertCount pos n v).1.heap i = some v) := by
  obtain ⟨pre, post, rfl, rfl⟩ := validPos_split hrep hpos
  obtain ⟨newIds, hlen, hge, hrep2, hret2, hdata2, -⟩ := insertCountAux_spec v n hrep
  refine ⟨pre, post, newIds, rfl, hlen, ?_, ?_, ?_, hdata2⟩
  · intro i hi hmem
    have h1 := hge i hi
    have h2 := hrep.fresh i hmem
    omega
  · rw [List.append_assoc]
    exact hrep2
  · cases newIds with
    | nil =>
      simp at hlen
      omega
    | cons a rest => exact hret2

theorem c2_witness :
    ListS.Rep ListS.sample2 [0, 1] ∧ ListS.ValidPos ListS.sample2 (some 0) ∧ 0 < 2
    ∧ (∃ pre post newIds : List Nat,
        [0, 1] = pre ++ post
        ∧ newIds.length = 2
        ∧ (∀ i ∈ newIds, i ∉ [0, 1])
        ∧ ListS.Rep (ListS.sample2.insertCount (some 0) 2 (7 : Int)).1
            (pre ++ newIds ++ post)
        ∧ (ListS.sample2.insertCount (some 0) 2 (7 : Int)).2 = newIds.head?
        ∧ (∀ i ∈ newIds,
            dataAt (ListS.sample2.insertCount (some 0) 2 (7 : Int)).1.heap i = some 7)) :=
  ⟨ListS.rep_sample2, ListS.validPos_sample2, by decide,
    c2_count_insert_returns_first 2 7 ListS.rep_sample2 ListS.validPos_sample2 (by decide)⟩

open ListS in
/-- C3: after any finite sequence of the public operations starting from the
default constructed empty list, the cached count equals the number of nodes
reached by following next from head (forward traversal has length size), head
and tail are both null or both set, the next and prev links are mutual
inverses throughout the store, and the head node has a null prev and the tail
node a null next. -/
theorem c3_invariants_after_operations {α : Type} {L : ListS α} (h : Reaches L) :
    (toList L).length = L.size
    ∧ (L.head = none ↔ L.tail = none)
    ∧ MutualInv L.heap
    ∧ Boundary L := by
  obtain ⟨ids, hr⟩ := reaches_wf h
  exact ⟨rep_toList_length hr, rep_head_iff_tail hr, rep_mutualInv hr, rep_boundary hr⟩

theorem c3_witness :
    ListS.Reaches ListS.sample2
    ∧ ((ListS.toList ListS.sample2).length = ListS.sample2.size
      ∧ (ListS.sample2.head = none ↔ ListS.sample2.tail = none)
      ∧ ListS.MutualInv ListS.sample2.heap
      ∧ ListS.Boundary ListS.sample2) :=
  ⟨ListS.reaches_sample2, c3_invariants_after_operations ListS.reaches_sample2⟩

open ListS in
/-- C4: on a well formed empty list front and back report the out-of-range
error, and on a nonempty list front returns the first element and back the
last element with no error.  Every other operation of the model is a total
function on states, mirroring that this is the only reported error of the
core. -/
theorem c4_front_back_error {α : Type} [Inhabited α] {L : ListS α} {xs : List α}
    (h : Models L xs) :
    (xs = [] → front L = Except.error ListError.outOfRange
      ∧ back L = Except.error ListError.outOfRange)
    ∧ (xs ≠ [] → (∃ a rest, xs = a :: rest ∧ front L = Except.ok a)
      ∧ (∃ init a, xs = init ++ [a] ∧ back L = Except.ok a)) := by
  obtain ⟨ids, hrep, rfl⟩ := h
  constructor
  · intro hxs
    have hlen := dmap_length_chain hrep.chain
    rw [hxs] at hlen
    have hids : ids = [] := by
      cases ids with
      | nil => rfl
      | cons a l => simp at hlen
    subst hids
    have hh : L.head = none := hrep.head_eq
    have ht : L.tail = none := hrep.tail_eq
    constructor
    · simp [front, hh]
    · simp [back, ht]
  · intro hxs
    have hids : ids ≠ [] := by
      intro hi
      subst hi
      exact hxs rfl
    constructor
    · cases ids with
      | nil => exact absurd rfl hids
      | cons a rest =>
        obtain ⟨na, hna, -, -, -⟩ := hrep.chain
        have hh : L.head = some a := hrep.head_eq
        exact ⟨na.data, dmap L.heap rest, by rw [dmap_cons_some rest hna],
          by simp [front, hh, hna]⟩
    · rcases eq_nil_or_append_singleton ids with rfl | ⟨init, t, rfl⟩
      · exact absurd rfl hids
      · obtain ⟨nt, hnt⟩ := Option.isSome_iff_exists.mp
          (chainSeg_mem_isSome hrep.chain t (by simp))
        have ht : L.tail = some t := by rw [hrep.tail_eq, lastLink_concat]
        refine ⟨dmap L.heap init, nt.data, ?_, by simp [back, ht, hnt]⟩
        rw [dmap_append, dmap_cons_some [] hnt, dmap_nil]

theorem c4_witness :
    ListS.Models ListS.sample2 [10, 20]
    ∧ (([10, 20] = ([] : List Int) → ListS.front ListS.sample2 =
          Except.error ListError.outOfRange
        ∧ ListS.back ListS.sample2 = Except.error ListError.outOfRange)
      ∧ ([10, 20] ≠ ([] : List Int) →
          (∃ a rest, [10, 20] = a :: rest ∧ ListS.front ListS.sample2 = Except.ok a)
          ∧ (∃ init a, [10, 20] = init ++ [a] ∧ ListS.back ListS.sample2 = Except.ok a))) :=
  ⟨ListS.models_sample2, c4_front_back_error ListS.models_sample2⟩

open ListS in
/-- C5: for every sequence of values pushed with push_back onto an initially
empty list, forward traversal from begin to end yields the values in push
order, and reverse traversal from rbegin to rend yields them reversed. -/
theorem c5_push_back_order_law {α : Type} (vs : List α) :
    toList (pushBackAll emptyList vs) = vs
    ∧ toListRev (pushBackAll emptyList vs) = vs.reverse := by
  have h := models_pushBackAll vs models_emptyList
  rw [show ([] : List α) ++ vs = vs from by simp] at h
  exact models_toList h

open ListS in
/-- C6: on a well formed empty list pop_back and pop_front leave the state
unchanged with size zero (a no-op, not an error); on a nonempty list pop_back
removes exactly the last element and pop_front exactly the first, each
decrementing the count by one, and when the removed node was the only one
both head and tail become null. -/
theorem c6_pop_back_pop_front {α : Type} {L : ListS α} {ids : List Nat}
    (h : Rep L ids) :
    (ids = [] → L.pop_back = L ∧ L.pop_front = L ∧ L.getSize = 0)
    ∧ (ids ≠ [] →
        (toList L.pop_back = (toList L).dropLast ∧ L.pop_back.size = L.size - 1)
        ∧ (toList L.pop_front = (toList L).tail ∧ L.pop_front.size = L.size - 1)
        ∧ (ids.length = 1 →
            L.pop_back.head = none ∧ L.pop_back.tail = none
            ∧ L.pop_front.head = none ∧ L.pop_front.tail = none)) := by
  constructor
  · intro hnil
    subst hnil
    refine ⟨pop_back_empty h.head_eq, pop_front_empty h.head_eq, ?_⟩
    show L.size = 0
    rw [h.size_eq]
    rfl
  · intro hne
    refine ⟨?_, ?_, ?_⟩
    · obtain ⟨init, t, rfl⟩ := (eq_nil_or_append_singleton ids).resolve_left hne
      obtain ⟨hrepb, hsizeb, hfrb⟩ := pop_back_spec h
      have htni : t ∉ init := by
        have hnd := h.nodup
        rw [List.nodup_append] at hnd
        intro hmem
        exact hnd.2.2 hmem (by simp)
      refine ⟨?_, hsizeb⟩
      rw [hrepb.toList_eq, h.toList_eq]
      obtain ⟨nt, hnt⟩ := Option.isSome_iff_exists.mp
        (chainSeg_mem_isSome h.chain t (by simp))
      rw [dmap_append, dmap_cons_some [] hnt, dmap_nil,
        dmap_congr_data (fun i hi => hfrb i (fun he => htni (he ▸ hi)))]
      simp
    · cases ids with
      | nil => exact absurd rfl hne
      | cons c rest =>
        obtain ⟨hrepf, hsizef, hfrf⟩ := pop_front_spec h
        have hcr : c ∉ rest := (List.nodup_cons.mp h.nodup).1
        refine ⟨?_, hsizef⟩
        rw [hrepf.toList_eq, h.toList_eq]
        obtain ⟨nc, hnc⟩ := Option.isSome_iff_exists.mp
          (chainSeg_mem_isSome h.chain c (by simp))
        rw [dmap_cons_some rest hnc,
          dmap_congr_data (fun i hi => hfrf i (fun he => hcr (he ▸ hi)))]
        rfl
    · intro hlen1
      obtain ⟨x, rfl⟩ := List.length_eq_one.mp hlen1
      obtain ⟨hrepb, -, -⟩ := pop_back_spec (show Rep L ([] ++ [x]) from h)
      obtain ⟨hrepf, -, -⟩ := pop_front_spec (show Rep L (x :: []) from h)
      exact ⟨hrepb.head_eq, hrepb.tail_eq, hrepf.head_eq, hrepf.tail_eq⟩

theorem c6_witness :
    ListS.Rep ListS.sample2 [0, 1]
    ∧ (([0, 1] = ([] : List Nat) → ListS.sample2.pop_back = ListS.sample2
          ∧ ListS.sample2.pop_front = ListS.sample2 ∧ ListS.sample2.getSize = 0)
      ∧ ([0, 1] ≠ ([] : List Nat) →
          (ListS.toList ListS.sample2.pop_back = (ListS.toList ListS.sample2).dropLast
            ∧ ListS.sample2.pop_back.size = ListS.sample2.size - 1)
          ∧ (ListS.toList ListS.sample2.pop_front = (ListS.toList ListS.sample2).tail
            ∧ ListS.sample2.pop_front.size = ListS.sample2.size - 1)
          ∧ (([0, 1] : List Nat).length = 1 →
              ListS.sample2.pop_back.head = none ∧ ListS.sample2.pop_back.tail = none
              ∧ ListS.sample2.pop_front.head = none
              ∧ ListS.sample2.pop_front.tail = none))) :=
  ⟨ListS.rep_sample2, c6_pop_back_pop_front ListS.rep_sample2⟩

open ListS in
/-- C7: move assignment between distinct lists leaves the receiver holding
exactly the head, tail and count of the source, so its contents equal the
former contents of the source, and resets the source to the empty state;
move self assignment is a no-op that returns the list unchanged. -/
theorem c7_move_assignment {α : Type} (A B : ListS α) :
    (moveAssign A B).1.head = B.head
    ∧ (moveAssign A B).1.tail = B.tail
    ∧ (moveAssign A B).1.size = B.size
    ∧ toList (moveAssign A B).1 = toList B
    ∧ (moveAssign A B).2.head = none
    ∧ (moveAssign A B).2.tail = none
    ∧ (moveAssign A B).2.size = 0
    ∧ moveAssignSelf A = A :=
  ⟨rfl, rfl, rfl, rfl, rfl, rfl, rfl, rfl⟩

open ListS in
/-- C8: prepend_range iterates the source in reverse and prepends each
element, so the final forward traversal is the source followed by the old
contents; append_range appends each element in source order, so the final
traversal is the old contents followed by the source. -/
theorem c8_append_prepend_range {α : Type} {L : ListS α} {xs : List α}
    (h : Models L xs) (ss : List α) :
    toList (L.prepend_range ss) = ss ++ xs
    ∧ toList (L.append_range ss) = xs ++ ss :=
  ⟨(models_toList (models_prepend_range ss h)).1,
    (models_toList (models_append_range ss h)).1⟩

theorem c8_witness :
    ListS.Models ListS.sample2 [10, 20]
    ∧ (ListS.toList (ListS.sample2.prepend_range [1, 2]) = [1, 2] ++ [10, 20]
      ∧ ListS.toList (ListS.sample2.append_range [1, 2]) = [10, 20] ++ [1, 2]) :=
  ⟨ListS.models_sample2, c8_append_prepend_range ListS.models_sample2 [1, 2]⟩

open ListS in
/-- C9: the count insert with count zero never enters its loop: it returns
the list unchanged together with an iterator equal to pos. -/
theorem c9_count_insert_zero {α : Type} (L : ListS α) (pos : Option Nat) (v : α) :
    L.insertCount pos 0 v = (L, pos)
    ∧ toList (L.insertCount pos 0 v).1 = toList L :=
  ⟨rfl, rfl⟩

open ListS in
/-- C10: swapping a list with itself is safe and leaves it unchanged: each of
the three aliased std::swap calls writes the saved value of its single
location back, so head, tail, size and the element sequence are the same
after the call. -/
theorem c10_self_swap {α : Type} (L : ListS α) :
    swapSelf L = L
    ∧ (swapSelf L).head = L.head
    ∧ (swapSelf L).tail = L.tail
    ∧ (swapSelf L).size = L.size
    ∧ toList (swapSelf L) = toList L :=
  ⟨rfl, rfl, rfl, rfl, rfl⟩









